import Mathlib

/-
  Verification of the core components of the workflowy-mcp repository:

  * `src/workflowy_mcp/client/rate_limit.py` — token-bucket `RateLimiter`
    and `AdaptiveRateLimiter`;
  * `src/workflowy_mcp/client/retry.py` — `RetryHandler` with exponential
    backoff;
  * `src/workflowy_mcp/transport.py` — `STDIOTransport` (byte-wise JSON
    framing state machine, JSON serialisation) and `TransportManager`
    dispatch.

  Modelling conventions: Python floats are modelled as rationals (ℚ),
  Python ints as ℤ/ℕ.  Async methods are modelled as pure state
  transformers; wall-clock time elapsed between events is passed as an
  explicit nonnegative rational, and `asyncio.sleep t` is modelled as
  "at least `t` seconds elapse", i.e. an elapsed time of `t + extra`
  with `extra ≥ 0`.  Byte streams are modelled as `List Char` (the code
  decodes one byte at a time as UTF-8, and every byte it ever produces
  itself is ASCII, where bytes and characters coincide).
-/

/-! ## Rate limiting: `client/rate_limit.py` -/

/-- State of `AdaptiveRateLimiter` relevant to `on_success` /
`on_rate_limit`: the current refill rate `requests_per_second`
(inherited from `RateLimiter`), the bounds `min_rate` / `max_rate`, and
the two streak counters.  The token-bucket fields of the base class are
not read or written by these two methods and are modelled separately by
`RateLimiter` below. -/
structure AdaptiveRateLimiter where
  requests_per_second : ℚ
  min_rate : ℚ
  max_rate : ℚ
  consecutive_successes : ℕ
  consecutive_failures : ℕ
deriving DecidableEq

/-- Model of `AdaptiveRateLimiter.__init__(initial_rate, min_rate,
max_rate)`: the base-class constructor sets
`requests_per_second = initial_rate` (no clamping), both streaks start
at 0. -/
def mkAdaptiveRateLimiter (initial_rate min_rate max_rate : ℚ) : AdaptiveRateLimiter :=
  ⟨initial_rate, min_rate, max_rate, 0, 0⟩

/-- Model of `AdaptiveRateLimiter.on_success`: increment the success
streak, clear the failure streak; once the success streak reaches 10,
compute `new_rate = min(rate * 1.1, max_rate)` and, only if it differs
from the current rate, install it and reset the success streak. -/
def AdaptiveRateLimiter.on_success (s : AdaptiveRateLimiter) : AdaptiveRateLimiter :=
  let s1 : AdaptiveRateLimiter :=
    { s with consecutive_successes := s.consecutive_successes + 1, consecutive_failures := 0 }
  if 10 ≤ s1.consecutive_successes then
    let new_rate := min (s1.requests_per_second * (11/10)) s1.max_rate
    if new_rate ≠ s1.requests_per_second then
      { s1 with requests_per_second := new_rate, consecutive_successes := 0 }
    else s1
  else s1

/-- Model of `AdaptiveRateLimiter.on_rate_limit`: increment the failure
streak, clear the success streak, and lower the rate to
`max(rate * 0.5, min_rate)` (the code skips the assignment when the
value is unchanged, which has no observable effect).  The optional
`retry_after` forwarding only touches the retry-after deadline, not any
field modelled here. -/
def AdaptiveRateLimiter.on_rate_limit (s : AdaptiveRateLimiter) : AdaptiveRateLimiter :=
  let s1 : AdaptiveRateLimiter :=
    { s with consecutive_failures := s.consecutive_failures + 1, consecutive_successes := 0 }
  let new_rate := max (s1.requests_per_second * (1/2)) s1.min_rate
  if new_rate ≠ s1.requests_per_second then
    { s1 with requests_per_second := new_rate }
  else s1

/-- The spec invariant for the adaptive limiter:
`min_rate ≤ requests_per_second ≤ max_rate`. -/
def AdaptiveRateLimiter.RateInv (s : AdaptiveRateLimiter) : Prop :=
  s.min_rate ≤ s.requests_per_second ∧ s.requests_per_second ≤ s.max_rate

instance (s : AdaptiveRateLimiter) : Decidable s.RateInv := by
  unfold AdaptiveRateLimiter.RateInv; infer_instance

/-- Token-bucket state of `RateLimiter`: `tokens` is the current token
count, `max_tokens` the capacity (`burst_size`), and
`requests_per_second` the refill rate. -/
structure RateLimiter where
  requests_per_second : ℚ
  tokens : ℚ
  max_tokens : ℚ
deriving DecidableEq

/-- Model of `RateLimiter.acquire(cost)`.  `elapsed1 ≥ 0` is the real
time elapsed since `last_update` when the call runs (any retry-after
wait at the top of `acquire` only adds to this elapsed time).  The
refill is `tokens = min(tokens + elapsed * rate, max_tokens)`.  If the
bucket is short, the code sleeps `wait_time = (cost - tokens) / rate`
and refills again; the actual time slept is `wait_time + extraSleep`
with `extraSleep ≥ 0` (asyncio.sleep waits at least the requested
time).  Finally `cost` tokens are consumed. -/
def RateLimiter.acquire (s : RateLimiter) (cost elapsed1 extraSleep : ℚ) : RateLimiter :=
  let t1 := min (s.tokens + elapsed1 * s.requests_per_second) s.max_tokens
  if t1 < cost then
    let wait_time := (cost - t1) / s.requests_per_second
    let t2 := min (t1 + (wait_time + extraSleep) * s.requests_per_second) s.max_tokens
    { s with tokens := t2 - cost }
  else
    { s with tokens := t1 - cost }

/-- One call to `acquire`: the token cost, the elapsed time since the
previous quiescent point, and the extra (beyond the requested
`wait_time`) duration of the sleep, if any. -/
structure AcquireCall where
  cost : ℚ
  elapsed1 : ℚ
  extraSleep : ℚ
deriving DecidableEq

/-- Run a sequence of `acquire` calls. -/
def RateLimiter.runAcquires (s : RateLimiter) (calls : List AcquireCall) : RateLimiter :=
  calls.foldl (fun t c => t.acquire c.cost c.elapsed1 c.extraSleep) s

/-- The spec invariant for the token bucket: `0 ≤ tokens ≤ capacity`. -/
def RateLimiter.TokenInv (s : RateLimiter) : Prop :=
  0 ≤ s.tokens ∧ s.tokens ≤ s.max_tokens

instance (s : RateLimiter) : Decidable s.TokenInv := by
  unfold RateLimiter.TokenInv; infer_instance

/-! ## Retry logic: `client/retry.py` -/

/-- Configuration of `RetryHandler`. -/
structure RetryHandler where
  max_retries : ℕ
  base_delay : ℚ
  max_delay : ℚ
  exponential_base : ℚ
  jitter : Bool
deriving DecidableEq

/-- Model of `RetryHandler.calculate_delay(attempt)`:
`delay = min(base_delay * exponential_base ** attempt, max_delay)`,
then, when jitter is on, `delay = delay * (0.5 + random.random())`.
The random draw `random.random() ∈ [0, 1)` is passed explicitly as
`rand`. -/
def RetryHandler.calculate_delay (h : RetryHandler) (attempt : ℕ) (rand : ℚ) : ℚ :=
  let delay := min (h.base_delay * h.exponential_base ^ attempt) h.max_delay
  if h.jitter then delay * (1/2 + rand) else delay

/-- The exceptions distinguished by `execute_with_retry`:
`RateLimitError` (optionally carrying `details["retry_after"]`),
`NetworkError`, `TimeoutError`, and any other exception.  The `tag`
payload distinguishes concrete error instances. -/
inductive ApiErr where
  | rateLimited (retry_after : Option ℚ) (tag : ℕ)
  | network (tag : ℕ)
  | timedOut (tag : ℕ)
  | other (tag : ℕ)
deriving DecidableEq

/-- An error is retried exactly when it is one of `RateLimitError`,
`NetworkError`, `TimeoutError`; every other exception re-raises
immediately. -/
def ApiErr.retryable : ApiErr → Bool
  | .other _ => false
  | _ => true

/-- Transient classification per the spec: `NetworkError` or
`TimeoutError`. -/
def ApiErr.transient : ApiErr → Bool
  | .network _ => true
  | .timedOut _ => true
  | _ => false

/-- The sleep chosen before a retry: `details.get("retry_after",
calculate_delay(attempt))` for a rate-limit error, otherwise
`calculate_delay(attempt)`. -/
def RetryHandler.retryDelay (h : RetryHandler) (e : ApiErr) (attempt : ℕ) (rand : ℚ) : ℚ :=
  match e with
  | .rateLimited (some ra) _ => ra
  | _ => h.calculate_delay attempt rand

/-- Model of the `for attempt in range(max_retries + 1)` loop of
`execute_with_retry`.  `op k` is the outcome of the (k+1)-th invocation
of the wrapped operation, `rand k` the jitter draw used on attempt `k`.
`remaining = max_retries - attempt` so that `attempt < max_retries`
iff `remaining > 0`.  Returns the final outcome, the number of times
the operation was invoked, and the list of sleeps performed. -/
def RetryHandler.runRetry {α : Type} (h : RetryHandler) (op : ℕ → Except ApiErr α)
    (rand : ℕ → ℚ) : ℕ → ℕ → Except ApiErr α × ℕ × List ℚ
  | attempt, remaining =>
    match op attempt with
    | .ok v => (.ok v, 1, [])
    | .error e =>
      if e.retryable then
        match remaining with
        | r + 1 =>
          let d := h.retryDelay e attempt (rand attempt)
          let tailRun := h.runRetry op rand (attempt + 1) r
          (tailRun.1, tailRun.2.1 + 1, d :: tailRun.2.2)
        | 0 => (.error e, 1, [])
      else (.error e, 1, [])

/-- Model of `RetryHandler.execute_with_retry(func)`: run the attempt
loop starting at attempt 0 with `max_retries` retries remaining. -/
def RetryHandler.execute_with_retry {α : Type} (h : RetryHandler) (op : ℕ → Except ApiErr α)
    (rand : ℕ → ℚ) : Except ApiErr α × ℕ × List ℚ :=
  h.runRetry op rand 0 h.max_retries

/-! ## Transport: `transport.py` -/

/-- The mutable scanning state of `STDIOTransport.read_message`:
brace-nesting `depth` (a Python int, so it may go negative), the
`in_string` flag and the `escape_next` flag. -/
structure ScanSt where
  depth : ℤ
  in_string : Bool
  escape_next : Bool
deriving DecidableEq

/-- Scanner state at the start of a `read_message` call. -/
def ScanSt.init : ScanSt := ⟨0, false, false⟩

/-- One character of the `read_message` state machine.  Returns the new
state and whether this character closed a depth-zero JSON object (the
`depth == 0` check after a `\x7d` outside a string).  The branch order
mirrors the `if`/`elif` chain in the source; when `escape_next` is set
the character is consumed without structural meaning. -/
def scanStep (st : ScanSt) (c : Char) : ScanSt × Bool :=
  if st.escape_next then (⟨st.depth, st.in_string, false⟩, false)
  else if c = '"' ∧ st.in_string = false then (⟨st.depth, true, false⟩, false)
  else if c = '"' ∧ st.in_string = true then (⟨st.depth, false, false⟩, false)
  else if c = '\\' ∧ st.in_string = true then (⟨st.depth, st.in_string, true⟩, false)
  else if c = '\x7b' ∧ st.in_string = false then (⟨st.depth + 1, st.in_string, false⟩, false)
  else if c = '\x7d' ∧ st.in_string = false then
    (⟨st.depth - 1, st.in_string, false⟩, decide (st.depth - 1 = 0))
  else (st, false)

/-- Run the scanner over a character list, stopping at the first
completion signal; returns the final state and whether a completion
occurred. -/
def scanRun : ScanSt → List Char → ScanSt × Bool
  | st, [] => (st, false)
  | st, c :: cs =>
    let p := scanStep st c
    if p.2 then (p.1, true) else scanRun p.1 cs

mutual
/-- JSON values, as produced by `json.loads` and consumed by
`json.dumps`.  Numbers are modelled as integers (the envelopes this
transport exchanges carry integer ids and codes; float payloads are
outside the model). -/
inductive JValue where
  | jnull : JValue
  | jbool : Bool → JValue
  | jnum : ℤ → JValue
  | jstr : String → JValue
  | jarr : JArr → JValue
  | jobj : JObj → JValue
/-- A JSON array (list of values). -/
inductive JArr where
  | anil : JArr
  | acons : JValue → JArr → JArr
/-- A JSON object (insertion-ordered key/value pairs, as Python dicts
are). -/
inductive JObj where
  | onil : JObj
  | ocons : String → JValue → JObj → JObj
end

/-- Decimal digit to character. -/
def digitChar (d : ℕ) : Char := Char.ofNat (48 + d)

/-- Big-endian decimal digits of `n` (empty for 0), with fuel. -/
def natToCharsAux : ℕ → ℕ → List Char
  | 0, _ => []
  | fuel + 1, n =>
    if n = 0 then [] else natToCharsAux fuel (n / 10) ++ [digitChar (n % 10)]

/-- Decimal representation of a natural number. -/
def natToChars (n : ℕ) : List Char :=
  if n = 0 then ['0'] else natToCharsAux (n + 1) n

/-- Decimal representation of an integer, as `json.dumps` prints Python
ints. -/
def intToChars : ℤ → List Char
  | .ofNat n => natToChars n
  | .negSucc m => '-' :: natToChars (m + 1)

/-- String escaping of `json.dumps` restricted to printable ASCII
(codepoints 32–126): exactly `"` and `\` are escaped there. -/
def escChar (c : Char) : List Char :=
  if c = '"' then ['\\', '"']
  else if c = '\\' then ['\\', '\\']
  else [c]

/-- Escape a whole character list. -/
def escChars : List Char → List Char
  | [] => []
  | c :: cs => escChar c ++ escChars cs

mutual
/-- Model of `json.dumps` with its default separators `", "` and
`": "`, producing the exact character stream written by
`write_message` (before the trailing newline). -/
def dumpV : JValue → List Char
  | .jnull => ['n', 'u', 'l', 'l']
  | .jbool true => ['t', 'r', 'u', 'e']
  | .jbool false => ['f', 'a', 'l', 's', 'e']
  | .jnum n => intToChars n
  | .jstr s => '"' :: (escChars s.data ++ ['"'])
  | .jarr xs => '[' :: (dumpElems xs ++ [']'])
  | .jobj kvs => '\x7b' :: (dumpMembers kvs ++ ['\x7d'])
/-- Array elements joined by `", "`. -/
def dumpElems : JArr → List Char
  | .anil => []
  | .acons v .anil => dumpV v
  | .acons v (.acons w tl) => dumpV v ++ ',' :: ' ' :: dumpElems (.acons w tl)
/-- Object members `"key": value` joined by `", "`. -/
def dumpMembers : JObj → List Char
  | .onil => []
  | .ocons k v .onil => '"' :: (escChars k.data ++ '"' :: ':' :: ' ' :: dumpV v)
  | .ocons k v (.ocons k2 v2 tl) =>
    ('"' :: (escChars k.data ++ '"' :: ':' :: ' ' :: dumpV v)) ++ ',' :: ' ' ::
      dumpMembers (.ocons k2 v2 tl)
end

/-- JSON whitespace. -/
def isWsChar (c : Char) : Bool := c = ' ' ∨ c = '\t' ∨ c = '\n' ∨ c = '\r'

/-- Drop leading whitespace. -/
def skipWs : List Char → List Char
  | [] => []
  | c :: cs => if isWsChar c then skipWs cs else c :: cs

/-- Decimal digit test. -/
def isDigitChar (c : Char) : Bool := 48 ≤ c.toNat ∧ c.toNat ≤ 57

/-- Consume a maximal run of digits, folding them onto `acc`. -/
def parseDigits : ℕ → List Char → ℕ × List Char
  | acc, [] => (acc, [])
  | acc, c :: cs =>
    if isDigitChar c then parseDigits (acc * 10 + (c.toNat - 48)) cs else (acc, c :: cs)

/-- Parse an optionally-signed decimal integer (at least one digit). -/
def parseIntChars : List Char → Option (ℤ × List Char)
  | [] => none
  | c :: cs =>
    if c = '-' then
      match cs with
      | c2 :: _ =>
        if isDigitChar c2 then
          let p := parseDigits 0 cs
          some (-(p.1 : ℤ), p.2)
        else none
      | [] => none
    else if isDigitChar c then
      let p := parseDigits 0 (c :: cs)
      some ((p.1 : ℤ), p.2)
    else none

/-- Single-character JSON escapes accepted by the parser (the `\uXXXX`
form is outside the model; `json.dumps` never emits it for printable
ASCII). -/
def unescChar (c : Char) : Option Char :=
  if c = '"' then some '"'
  else if c = '\\' then some '\\'
  else if c = '/' then some '/'
  else if c = 'n' then some '\n'
  else if c = 't' then some '\t'
  else if c = 'r' then some '\r'
  else if c = 'b' then some (Char.ofNat 8)
  else if c = 'f' then some (Char.ofNat 12)
  else none

/-- Parse the body of a JSON string (after the opening quote), up to
and including the closing quote; the boolean records a pending
escape. -/
def parseStrAux : Bool → List Char → Option (List Char × List Char)
  | _, [] => none
  | true, e :: cs =>
    match unescChar e with
    | some u =>
      match parseStrAux false cs with
      | some (s, r) => some (u :: s, r)
      | none => none
    | none => none
  | false, c :: cs =>
    if c = '"' then some ([], cs)
    else if c = '\\' then parseStrAux true cs
    else
      match parseStrAux false cs with
      | some (s, r) => some (c :: s, r)
      | none => none

/-- Parse a JSON string body with no escape pending. -/
def parseStrChars : List Char → Option (List Char × List Char) :=
  parseStrAux false

mutual
/-- Recursive-descent model of `json.loads`, fuelled.  `parseValue`
consumes leading whitespace then one JSON value. -/
def parseValue : ℕ → List Char → Option (JValue × List Char)
  | 0, _ => none
  | fuel + 1, cs =>
    match skipWs cs with
    | [] => none
    | c :: r =>
      if c = 'n' then
        match r with
        | 'u' :: 'l' :: 'l' :: r2 => some (.jnull, r2)
        | _ => none
      else if c = 't' then
        match r with
        | 'r' :: 'u' :: 'e' :: r2 => some (.jbool true, r2)
        | _ => none
      else if c = 'f' then
        match r with
        | 'a' :: 'l' :: 's' :: 'e' :: r2 => some (.jbool false, r2)
        | _ => none
      else if c = '"' then
        match parseStrChars r with
        | some (s, r2) => some (.jstr ⟨s⟩, r2)
        | none => none
      else if c = '[' then
        match skipWs r with
        | [] => none
        | c2 :: r2 =>
          if c2 = ']' then some (.jarr .anil, r2)
          else
            match parseElems fuel (c2 :: r2) with
            | some (xs, r3) => some (.jarr xs, r3)
            | none => none
      else if c = '\x7b' then
        match skipWs r with
        | [] => none
        | c2 :: r2 =>
          if c2 = '\x7d' then some (.jobj .onil, r2)
          else
            match parseMembers fuel (c2 :: r2) with
            | some (kvs, r3) => some (.jobj kvs, r3)
            | none => none
      else
        match parseIntChars (c :: r) with
        | some (n, r2) => some (.jnum n, r2)
        | none => none

/-- Parse one or more comma-separated array elements and the closing
bracket. -/
def parseElems : ℕ → List Char → Option (JArr × List Char)
  | 0, _ => none
  | fuel + 1, cs =>
    match parseValue fuel cs with
    | some (v, r) =>
      match skipWs r with
      | ',' :: r2 =>
        match parseElems fuel r2 with
        | some (xs, r3) => some (.acons v xs, r3)
        | none => none
      | ']' :: r2 => some (.acons v .anil, r2)
      | _ => none
    | none => none

/-- Parse one or more `"key": value` members (the key expected at the
head, whitespace already skipped) and the closing brace. -/
def parseMembers : ℕ → List Char → Option (JObj × List Char)
  | 0, _ => none
  | fuel + 1, cs =>
    match cs with
    | '"' :: r =>
      match parseStrChars r with
      | some (k, r2) =>
        match skipWs r2 with
        | ':' :: r3 =>
          match parseValue fuel r3 with
          | some (v, r4) =>
            match skipWs r4 with
            | ',' :: r5 =>
              match parseMembers fuel (skipWs r5) with
              | some (kvs, r6) => some (.ocons ⟨k⟩ v kvs, r6)
              | none => none
            | '\x7d' :: r5 => some (.ocons ⟨k⟩ v .onil, r5)
            | _ => none
          | none => none
        | _ => none
      | none => none
    | _ => none
end

/-- Model of `json.loads` on a complete buffer: parse one value and
require that only whitespace remains. -/
def loads (cs : List Char) : Option JValue :=
  match parseValue (2 * cs.length + 2) cs with
  | some (v, r) => if skipWs r = [] then some v else none
  | none => none

/-- The `Message` dataclass of `transport.py`, with the field types of
its annotations (`id: int | None`, `method: str | None`,
`params: dict | None`, `result: Any | None`, `error: dict | None`). -/
structure Message where
  jsonrpc : String
  id : Option ℤ
  method : Option String
  params : Option JObj
  result : Option JValue
  error : Option JObj

/-- The dataclass defaults: `jsonrpc = "2.0"`, every other field
`None`. -/
def defaultMessage : Message := ⟨"2.0", none, none, none, none, none⟩

/-- Concatenation of ordered key/value lists. -/
def jobjAppend : JObj → JObj → JObj
  | .onil, o => o
  | .ocons k v tl, o => .ocons k v (jobjAppend tl o)

/-- A one-entry object when the value is present, empty otherwise. -/
def optEntry (k : String) (v : Option JValue) : JObj :=
  match v with
  | some x => .ocons k x .onil
  | none => .onil

/-- The `data` dict built by `write_message`: `jsonrpc` always, then
each of `id`, `method`, `params`, `result`, `error` only when the field
`is not None`, in this insertion order. -/
def Message.buildData (m : Message) : JObj :=
  jobjAppend (.ocons "jsonrpc" (.jstr m.jsonrpc) .onil)
    (jobjAppend (optEntry "id" (m.id.map .jnum))
      (jobjAppend (optEntry "method" (m.method.map .jstr))
        (jobjAppend (optEntry "params" (m.params.map .jobj))
          (jobjAppend (optEntry "result" m.result)
            (optEntry "error" (m.error.map .jobj))))))

/-- Model of `STDIOTransport.write_message`: `json.dumps(data) + "\n"`
encoded to the stream. -/
def Message.write_message (m : Message) : List Char :=
  dumpV (.jobj m.buildData) ++ ['\n']

/-- Assign one keyword argument of `Message(**data)`.  Python
dataclasses do not check types at run time; the model accepts exactly
values conforming to the field annotations (all messages arising in
the verified claims conform) and rejects unknown keys, as
`Message(**data)` raises `TypeError` on those. -/
def setMsgField (m : Message) (k : String) (v : JValue) : Option Message :=
  if k = "jsonrpc" then
    match v with
    | .jstr s => some { m with jsonrpc := s }
    | _ => none
  else if k = "id" then
    match v with
    | .jnum n => some { m with id := some n }
    | _ => none
  else if k = "method" then
    match v with
    | .jstr s => some { m with method := some s }
    | _ => none
  else if k = "params" then
    match v with
    | .jobj o => some { m with params := some o }
    | _ => none
  else if k = "result" then some { m with result := some v }
  else if k = "error" then
    match v with
    | .jobj o => some { m with error := some o }
    | _ => none
  else none

/-- Fold the parsed object's entries into a `Message`, starting from
the dataclass defaults (later duplicate keys override, as in a Python
dict). -/
def msgOfObjAux : Message → JObj → Option Message
  | m, .onil => some m
  | m, .ocons k v tl =>
    match setMsgField m k v with
    | some m2 => msgOfObjAux m2 tl
    | none => none

/-- Model of `Message(**data)` applied to the result of `json.loads`:
the top-level value must be an object. -/
def msgOfJson : JValue → Option Message
  | .jobj o => msgOfObjAux defaultMessage o
  | _ => none

/-- Python `buffer.strip()` truthiness: some non-whitespace character
exists. -/
def hasNonWs (cs : List Char) : Bool := cs.any (fun c => !(isWsChar c))

/-- Model of the read loop of `STDIOTransport.read_message` over a
character stream.  On each character the buffer grows and the scanner
steps; when the scanner reports a depth-zero `\x7d` and the stripped
buffer is non-empty, the buffer is parsed: a `json.JSONDecodeError`
(modelled by `loads` returning `none`) is logged, the buffer is
discarded and reading continues, while a successfully decoded object
is turned into a `Message` (a `TypeError` from `Message(**data)`
escapes to the outer handler, so `read_message` returns `None`).
End of stream returns `None`. -/
def read_message : List Char → ScanSt → List Char → Option (Message × List Char)
  | _, _, [] => none
  | buf, st, c :: rest =>
    let buf2 := buf ++ [c]
    let p := scanStep st c
    if p.2 = true ∧ hasNonWs buf2 = true then
      match loads buf2 with
      | some j =>
        match msgOfJson j with
        | some m => some (m, rest)
        | none => none
      | none => read_message [] p.1 rest
    else read_message buf2 p.1 rest

/-- A registered handler: receives the params dict (`message.params or
{}`), and either returns a result (possibly `None`) or raises. -/
def Handler : Type := JObj → Except String (Option JValue)

/-- The method→handler registry, looked up by method name. -/
def lookupHandler : List (String × Handler) → String → Option Handler
  | [], _ => none
  | (k, h) :: tl, meth => if k = meth then some h else lookupHandler tl meth

/-- Python `f"{m}"` applied to an `Optional[str]`: `None` formats as
the string `"None"`. -/
def pyStrOfMethod : Option String → String
  | some s => s
  | none => "None"

/-- A JSON-RPC error object `{"code": c, "message": msg}`. -/
def errObj (code : ℤ) (msg : String) : JObj :=
  .ocons "code" (.jnum code) (.ocons "message" (.jstr msg) .onil)

/-- Model of `STDIOTransport.send_response`: a message with the given
id, result and error (absent fields `None`). -/
def send_response (request_id : ℤ) (result : Option JValue) (error : Option JObj) : Message :=
  ⟨"2.0", some request_id, none, none, result, error⟩

/-- Model of `TransportManager.handle_message`, returning the list of
messages written to the transport.  The guard `message.method and
message.method in self.handlers` uses Python truthiness, so an empty
or absent method falls through to the unknown-method branch; responses
are only written when `message.id is not None`. -/
def handle_message (handlers : List (String × Handler)) (m : Message) : List Message :=
  let notFound : List Message :=
    match m.id with
    | some i =>
      [send_response i none
        (some (errObj (-32601) ("Method not found: " ++ pyStrOfMethod m.method)))]
    | none => []
  match m.method with
  | some meth =>
    if meth ≠ "" then
      match lookupHandler handlers meth with
      | some h =>
        match h (m.params.getD .onil) with
        | .ok r =>
          match m.id with
          | some i => [send_response i r none]
          | none => []
        | .error emsg =>
          match m.id with
          | some i => [send_response i none (some (errObj (-32603) emsg))]
          | none => []
      | none => notFound
    else notFound
  | none => notFound

/-- Model of `TransportManager.run`: repeatedly read one message and
dispatch it, collecting everything written.  The Python loop runs
until the transport stops; `fuel` bounds the number of iterations
unrolled here (the loop itself never exits because of a dispatched
message). -/
def runDispatch (handlers : List (String × Handler)) : ℕ → List Char → List Message
  | 0, _ => []
  | fuel + 1, input =>
    match read_message [] ScanSt.init input with
    | some (m, rest) => handle_message handlers m ++ runDispatch handlers fuel rest
    | none => []

/-- Printable-ASCII well-formedness for strings: every character in
codepoints 32–126, the range over which the modelled `json.dumps`
escaping is exact. -/
def wfStr (s : String) : Bool := s.data.all fun c => decide (32 ≤ c.toNat ∧ c.toNat ≤ 126)

mutual
/-- All strings in a value are printable ASCII. -/
def wfV : JValue → Bool
  | .jnull => true
  | .jbool _ => true
  | .jnum _ => true
  | .jstr s => wfStr s
  | .jarr xs => wfA xs
  | .jobj kvs => wfO kvs
/-- Array version of `wfV`. -/
def wfA : JArr → Bool
  | .anil => true
  | .acons v tl => wfV v && wfA tl
/-- Object version of `wfV`. -/
def wfO : JObj → Bool
  | .onil => true
  | .ocons k v tl => wfStr k && wfV v && wfO tl
end

/-- Well-formed envelopes for the round-trip: all strings printable
ASCII, and a present `result` is not JSON `null` (a null `result` is
not representable in the Python dataclass, where the field value would
be `None` and `write_message` would treat it as absent — the claim's
"present fields are non-None"). -/
def wfMessage (m : Message) : Bool :=
  wfStr m.jsonrpc &&
  (match m.method with
   | some s => wfStr s
   | none => true) &&
  (match m.params with
   | some o => wfO o
   | none => true) &&
  (match m.result with
   | some .jnull => false
   | some v => wfV v
   | none => true) &&
  (match m.error with
   | some o => wfO o
   | none => true)

mutual
/-- Fuel bound for `parseValue` on a dumped value. -/
def szV : JValue → ℕ
  | .jnull => 1
  | .jbool _ => 1
  | .jnum _ => 1
  | .jstr _ => 1
  | .jarr xs => szA xs + 1
  | .jobj kvs => szO kvs + 1
/-- Fuel bound for `parseElems`. -/
def szA : JArr → ℕ
  | .anil => 1
  | .acons v tl => szV v + szA tl + 1
/-- Fuel bound for `parseMembers`. -/
def szO : JObj → ℕ
  | .onil => 1
  | .ocons _ v tl => szV v + szO tl + 1
end

/-- Characters with no structural meaning for the scanner in any
state: not a quote, backslash or brace. -/
def inertChar (c : Char) : Bool :=
  decide (c ≠ '"' ∧ c ≠ '\\' ∧ c ≠ '\x7b' ∧ c ≠ '\x7d')

/-- A remainder that cannot extend a just-parsed number: empty or not
starting with a digit. -/
def noLeadingDigit : List Char → Bool
  | [] => true
  | c :: _ => !(isDigitChar c)

/-- Key membership in a JSON object. -/
def hasKeyO (k : String) : JObj → Bool
  | .onil => false
  | .ocons k2 _ tl => if k2 = k then true else hasKeyO k tl

/-- A concrete request envelope exercising the round-trip claim:
nested objects and arrays, strings with embedded braces and escaped
quotes. -/
def exampleMessage : Message :=
  ⟨"2.0", some 5, some "upd\x7bate\x7d",
    some (.ocons "note" (.jstr "a\x22b\x7b")
      (.ocons "arr" (.jarr (.acons (.jnum (-1))
        (.acons (.jobj (.ocons "k" .jnull .onil)) .anil))) .onil)),
    some (.jstr "ok"), none⟩

/-- Concrete inbound request `{"id": 7, "method": "unknown"}`. -/
def reqUnknown7 : List Char := ("\x7b\x22id\x22: 7, \x22method\x22: \x22unknown\x22\x7d").toList

/-- Concrete inbound request `{"id": 8, "method": "unknown"}`. -/
def reqUnknown8 : List Char := ("\x7b\x22id\x22: 8, \x22method\x22: \x22unknown\x22\x7d").toList

/-! ## Lemmas and theorems: rate limiting and retry -/

/-- An `on_success` call whose incremented streak is still below 10
only bumps the streak and clears the failure streak. -/
theorem on_success_below (r mn mx : ℚ) (k cf : ℕ) (hk : k + 1 < 10) :
    AdaptiveRateLimiter.on_success ⟨r, mn, mx, k, cf⟩ = ⟨r, mn, mx, k + 1, 0⟩ := by
  unfold AdaptiveRateLimiter.on_success
  simp only []
  rw [if_neg (by simpa using by omega : ¬ 10 ≤ k + 1)]

/-- Iterating `on_success` while the streak stays below 10 just counts
successes. -/
theorem iter_on_success_small (r mn mx : ℚ) : ∀ (n k cf : ℕ), 1 ≤ n → k + n < 10 →
    (AdaptiveRateLimiter.on_success)^[n] ⟨r, mn, mx, k, cf⟩ = ⟨r, mn, mx, k + n, 0⟩ := by
  intro n
  induction n with
  | zero => omega
  | succ m ih =>
    intro k cf _ hlt
    rw [Function.iterate_succ_apply, on_success_below r mn mx k cf (by omega)]
    rcases Nat.eq_zero_or_pos m with hm | hm
    · subst hm; simp
    · rw [ih (k + 1) 0 hm (by omega)]
      congr 1
      omega

/-- After ten successes from a zero streak and a rate off its cap, the
candidate rate differs from the current rate whenever the rate is
nonzero. -/
theorem new_rate_ne (r mx : ℚ) (hlt : r < mx) (hne : r ≠ 0) :
    min (r * (11/10)) mx ≠ r := by
  rcases lt_or_gt_of_ne hne with hneg | hpos
  · have h1 : r * (11/10) < r := by nlinarith
    have h2 : min (r * (11/10)) mx ≤ r * (11/10) := min_le_left _ _
    exact ne_of_lt (lt_of_le_of_lt h2 h1)
  · have h1 : r < r * (11/10) := by nlinarith
    exact ne_of_gt (lt_min h1 hlt)

/-- Claim C1.  For an `AdaptiveRateLimiter` with a fresh success streak
whose refill rate is strictly below `max_rate` and nonzero, ten
consecutive `on_success` calls set the rate to
`min(1.1 * previous, max_rate)` and reset the success streak; and for
every state, one `on_rate_limit` call sets the rate to
`max(0.5 * previous, min_rate)`, resets the success streak and
increments the failure streak.  (Amended from the claim as frozen: when
the rate is exactly 0 the tenth `on_success` leaves the rate unchanged
and therefore does not reset the streak, see the counterexample.) -/
theorem C1_adaptive_adjustment (s : AdaptiveRateLimiter)
    (hcs : s.consecutive_successes = 0)
    (hlt : s.requests_per_second < s.max_rate)
    (hne : s.requests_per_second ≠ 0) :
    ((AdaptiveRateLimiter.on_success)^[10] s).requests_per_second
        = min (s.requests_per_second * (11/10)) s.max_rate ∧
    ((AdaptiveRateLimiter.on_success)^[10] s).consecutive_successes = 0 ∧
    ∀ t : AdaptiveRateLimiter,
      t.on_rate_limit.requests_per_second
          = max (t.requests_per_second * (1/2)) t.min_rate ∧
      t.on_rate_limit.consecutive_successes = 0 ∧
      t.on_rate_limit.consecutive_failures = t.consecutive_failures + 1 := by
  obtain ⟨r, mn, mx, cs, cf⟩ := s
  simp only [] at hlt hne
  cases hcs
  have h9 : (AdaptiveRateLimiter.on_success)^[9] (⟨r, mn, mx, 0, cf⟩ : AdaptiveRateLimiter)
      = ⟨r, mn, mx, 9, 0⟩ := by
    have := iter_on_success_small r mn mx 9 0 cf (by omega) (by omega)
    simpa using this
  have h10 : (AdaptiveRateLimiter.on_success)^[10] (⟨r, mn, mx, 0, cf⟩ : AdaptiveRateLimiter)
      = ⟨min (r * (11/10)) mx, mn, mx, 0, 0⟩ := by
    rw [show (10 : ℕ) = 9 + 1 from rfl, Function.iterate_succ_apply', h9]
    unfold AdaptiveRateLimiter.on_success
    simp only []
    rw [if_pos (by omega : (10:ℕ) ≤ 9 + 1), if_pos (new_rate_ne r mx hlt hne)]
  refine ⟨by rw [h10], by rw [h10], ?_⟩
  intro t
  obtain ⟨tr, tmn, tmx, tcs, tcf⟩ := t
  unfold AdaptiveRateLimiter.on_rate_limit
  simp only []
  by_cases hch : max (tr * (1/2)) tmn ≠ tr
  · rw [if_pos hch]
    exact ⟨rfl, rfl, rfl⟩
  · rw [if_neg hch]
    push_neg at hch
    exact ⟨hch.symm, rfl, rfl⟩

/-- Witness for C1 at a concrete limiter (rate 10, bounds [1, 100]):
ten successes raise the rate to 11 and clear the streak, and one
`on_rate_limit` then halves it. -/
theorem C1_witness :
    ((AdaptiveRateLimiter.on_success)^[10] (mkAdaptiveRateLimiter 10 1 100)).requests_per_second
        = 11 ∧
    ((AdaptiveRateLimiter.on_success)^[10]
        (mkAdaptiveRateLimiter 10 1 100)).consecutive_successes = 0 := by
  have h := C1_adaptive_adjustment (mkAdaptiveRateLimiter 10 1 100) rfl
    (by norm_num [mkAdaptiveRateLimiter]) (by norm_num [mkAdaptiveRateLimiter])
  refine ⟨?_, h.2.1⟩
  rw [h.1]
  norm_num [mkAdaptiveRateLimiter]

/-- Counterexample to C1 as frozen: with refill rate 0 (strictly below
`max_rate = 100`), ten `on_success` calls do not reset the success
streak, because `min(0 * 1.1, 100) = 0` equals the current rate and the
code only resets the streak when the rate actually changes. -/
theorem C1_counterexample :
    (mkAdaptiveRateLimiter 0 0 100).requests_per_second
        < (mkAdaptiveRateLimiter 0 0 100).max_rate ∧
    ((AdaptiveRateLimiter.on_success)^[10]
        (mkAdaptiveRateLimiter 0 0 100)).consecutive_successes ≠ 0 := by
  have h9 : (AdaptiveRateLimiter.on_success)^[9]
      (⟨0, 0, 100, 0, 0⟩ : AdaptiveRateLimiter) = ⟨0, 0, 100, 9, 0⟩ := by
    simpa using iter_on_success_small 0 0 100 9 0 0 (by omega) (by omega)
  have h10 : (AdaptiveRateLimiter.on_success)^[10]
      (⟨0, 0, 100, 0, 0⟩ : AdaptiveRateLimiter) = ⟨0, 0, 100, 10, 0⟩ := by
    rw [show (10 : ℕ) = 9 + 1 from rfl, Function.iterate_succ_apply', h9]
    unfold AdaptiveRateLimiter.on_success
    simp only []
    rw [if_pos (by omega : (10:ℕ) ≤ 9 + 1),
      if_neg (by norm_num : ¬ min ((0:ℚ) * (11/10)) 100 ≠ 0)]
  constructor
  · norm_num [mkAdaptiveRateLimiter]
  · rw [show mkAdaptiveRateLimiter 0 0 100 = ⟨0, 0, 100, 0, 0⟩ from rfl, h10]
    norm_num

/-- Claim C7, amended.  The invariant `min_rate ≤ requests_per_second ≤
max_rate` holds immediately after construction whenever the constructor
arguments satisfy `min_rate ≤ initial_rate ≤ max_rate` (the constructor
performs no clamping), and it is preserved by `on_success` and
`on_rate_limit` provided additionally `0 ≤ min_rate`.  (Amended from
the claim as frozen: with a negative `min_rate` the 10% increase of a
negative rate moves it further down and `on_success` can push the rate
below `min_rate`, see the counterexample.) -/
theorem C7_rate_invariant (initial mn mx : ℚ) (s : AdaptiveRateLimiter) :
    (mn ≤ initial → initial ≤ mx → (mkAdaptiveRateLimiter initial mn mx).RateInv) ∧
    (0 ≤ s.min_rate → s.RateInv → s.on_success.RateInv ∧ s.on_rate_limit.RateInv) := by
  constructor
  · intro h1 h2
    exact ⟨h1, h2⟩
  · intro h0 hinv
    obtain ⟨r, mn', mx', cs, cf⟩ := s
    obtain ⟨hl, hu⟩ := hinv
    simp only [AdaptiveRateLimiter.RateInv] at hl hu ⊢
    simp only [] at h0
    have hr0 : 0 ≤ r := le_trans h0 hl
    constructor
    · unfold AdaptiveRateLimiter.on_success
      simp only []
      by_cases hten : 10 ≤ cs + 1
      · rw [if_pos hten]
        by_cases hch : min (r * (11/10)) mx' ≠ r
        · rw [if_pos hch]
          refine ⟨le_min (by nlinarith) (le_trans hl hu), min_le_right _ _⟩
        · rw [if_neg hch]
          exact ⟨hl, hu⟩
      · rw [if_neg hten]
        exact ⟨hl, hu⟩
    · unfold AdaptiveRateLimiter.on_rate_limit
      simp only []
      by_cases hch : max (r * (1/2)) mn' ≠ r
      · rw [if_pos hch]
        refine ⟨le_max_right _ _, max_le (by nlinarith) (le_trans hl hu)⟩
      · rw [if_neg hch]
        exact ⟨hl, hu⟩

/-- Witness for C7 at a concrete limiter: construction with
`(initial, min, max) = (10, 1, 100)` establishes the invariant and one
`on_success` / `on_rate_limit` call preserves it. -/
theorem C7_witness :
    (mkAdaptiveRateLimiter 10 1 100).RateInv ∧
    (mkAdaptiveRateLimiter 10 1 100).on_success.RateInv ∧
    (mkAdaptiveRateLimiter 10 1 100).on_rate_limit.RateInv := by
  have h := C7_rate_invariant 10 1 100 (mkAdaptiveRateLimiter 10 1 100)
  have h1 := h.1 (by norm_num) (by norm_num)
  have h2 := h.2 (by norm_num [mkAdaptiveRateLimiter]) h1
  exact ⟨h1, h2.1, h2.2⟩

/-- Counterexample to C7 as frozen: with `min_rate = initial_rate = -4`
and `max_rate = 100` the invariant holds after construction, but ten
`on_success` calls drop the rate to `-4.4 < min_rate`: the invariant is
not preserved for negative rates. -/
theorem C7_counterexample :
    (mkAdaptiveRateLimiter (-4) (-4) 100).RateInv ∧
    ¬ ((AdaptiveRateLimiter.on_success)^[10] (mkAdaptiveRateLimiter (-4) (-4) 100)).RateInv := by
  have h9 : (AdaptiveRateLimiter.on_success)^[9]
      (⟨-4, -4, 100, 0, 0⟩ : AdaptiveRateLimiter) = ⟨-4, -4, 100, 9, 0⟩ := by
    simpa using iter_on_success_small (-4) (-4) 100 9 0 0 (by omega) (by omega)
  have h10 : (AdaptiveRateLimiter.on_success)^[10]
      (⟨-4, -4, 100, 0, 0⟩ : AdaptiveRateLimiter) = ⟨-22/5, -4, 100, 0, 0⟩ := by
    rw [show (10 : ℕ) = 9 + 1 from rfl, Function.iterate_succ_apply', h9]
    unfold AdaptiveRateLimiter.on_success
    simp only []
    rw [if_pos (by omega : (10:ℕ) ≤ 9 + 1),
      if_pos (by norm_num : min ((-4:ℚ) * (11/10)) 100 ≠ -4)]
    norm_num
  constructor
  · constructor <;> norm_num [mkAdaptiveRateLimiter, AdaptiveRateLimiter.RateInv]
  · rw [show mkAdaptiveRateLimiter (-4) (-4) 100 = ⟨-4, -4, 100, 0, 0⟩ from rfl, h10]
    intro hinv
    have := hinv.1
    norm_num [AdaptiveRateLimiter.RateInv] at this

/-- Single-step preservation for `acquire`: with a positive refill
rate, a nonnegative cost within capacity, nonnegative elapsed time and
a sleep of at least the requested duration, the token count lands in
`[0, max_tokens]`, and the capacity and rate fields are untouched. -/
theorem acquire_step (s : RateLimiter) (cost e1 ex : ℚ)
    (hrate : 0 < s.requests_per_second) (hc0 : 0 ≤ cost) (hcc : cost ≤ s.max_tokens)
    (ht : s.tokens ≤ s.max_tokens) (he1 : 0 ≤ e1) (hex : 0 ≤ ex) :
    (s.acquire cost e1 ex).TokenInv ∧
    (s.acquire cost e1 ex).max_tokens = s.max_tokens ∧
    (s.acquire cost e1 ex).requests_per_second = s.requests_per_second := by
  obtain ⟨rate, tok, cap⟩ := s
  simp only [] at hrate hcc ht ⊢
  by_cases hshort : min (tok + e1 * rate) cap < cost
  · have hval : (⟨rate, tok, cap⟩ : RateLimiter).acquire cost e1 ex
        = ⟨rate, min (cost + ex * rate) cap - cost, cap⟩ := by
      unfold RateLimiter.acquire
      simp only []
      rw [if_pos hshort]
      have hrw : min (tok + e1 * rate) cap
            + ((cost - min (tok + e1 * rate) cap) / rate + ex) * rate
          = cost + ex * rate := by
        field_simp
        ring
      rw [hrw]
    rw [hval]
    have h1 : cost ≤ min (cost + ex * rate) cap := le_min (by nlinarith) hcc
    have h2 : min (cost + ex * rate) cap ≤ cap := min_le_right _ _
    exact ⟨⟨show (0:ℚ) ≤ min (cost + ex * rate) cap - cost by linarith,
      show min (cost + ex * rate) cap - cost ≤ cap by linarith⟩, rfl, rfl⟩
  · have hval : (⟨rate, tok, cap⟩ : RateLimiter).acquire cost e1 ex
        = ⟨rate, min (tok + e1 * rate) cap - cost, cap⟩ := by
      unfold RateLimiter.acquire
      simp only []
      rw [if_neg hshort]
    rw [hval]
    push_neg at hshort
    have h2 : min (tok + e1 * rate) cap ≤ cap := min_le_right _ _
    exact ⟨⟨show (0:ℚ) ≤ min (tok + e1 * rate) cap - cost by linarith,
      show min (tok + e1 * rate) cap - cost ≤ cap by linarith⟩, rfl, rfl⟩

/-- Invariant after any sequence of well-behaved `acquire` calls, plus
preservation of the capacity and rate fields. -/
theorem runAcquires_inv : ∀ (pre : List AcquireCall) (s : RateLimiter),
    0 < s.requests_per_second → s.tokens ≤ s.max_tokens →
    (∀ c ∈ pre, 0 ≤ c.cost ∧ c.cost ≤ s.max_tokens ∧ 0 ≤ c.elapsed1 ∧ 0 ≤ c.extraSleep) →
    ((s.runAcquires pre).tokens ≤ (s.runAcquires pre).max_tokens ∧
      (pre = [] ∨ (s.runAcquires pre).TokenInv)) ∧
    (s.runAcquires pre).max_tokens = s.max_tokens ∧
    (s.runAcquires pre).requests_per_second = s.requests_per_second := by
  intro pre
  induction pre with
  | nil =>
    intro s h1 h2 _
    exact ⟨⟨h2, Or.inl rfl⟩, rfl, rfl⟩
  | cons c tl ih =>
    intro s h1 h2 hcalls
    obtain ⟨hc0, hcc, he1, hex⟩ := hcalls c (List.mem_cons_self c tl)
    have hstep := acquire_step s c.cost c.elapsed1 c.extraSleep h1 hc0 hcc h2 he1 hex
    have hrun : s.runAcquires (c :: tl)
        = (s.acquire c.cost c.elapsed1 c.extraSleep).runAcquires tl := rfl
    set s2 := s.acquire c.cost c.elapsed1 c.extraSleep with hs2
    have ihh := ih s2 (by rw [hstep.2.2]; exact h1) hstep.1.2
      (by
        intro d hd
        obtain ⟨a, b, cc, dd⟩ := hcalls d (List.mem_cons_of_mem c hd)
        exact ⟨a, by rw [hstep.2.1]; exact b, cc, dd⟩)
    refine ⟨⟨by rw [hrun]; exact ihh.1.1, Or.inr ?_⟩,
      by rw [hrun, ihh.2.1, hstep.2.1], by rw [hrun, ihh.2.2, hstep.2.2]⟩
    rcases ihh.1.2 with hnil | hinv
    · rw [hrun, hnil]
      exact hstep.1
    · rw [hrun]
      exact hinv

/-- Claim C6, amended.  For every sequence of `acquire` calls on a
bucket with a positive refill rate, in which each call's cost satisfies
`0 ≤ cost ≤ max_tokens`, elapsed times are nonnegative and each sleep
lasts at least the requested `wait_time`, the invariant
`0 ≤ tokens ≤ max_tokens` holds at every quiescent point (after every
prefix of the sequence, given that it held at the start).  (Amended
from the claim as frozen: the claim only bounded `cost` above; a
negative cost — which the code happily accepts — pushes `tokens` above
capacity, see the counterexample.) -/
theorem C6_token_invariant (s : RateLimiter) (calls pre suf : List AcquireCall)
    (hrate : 0 < s.requests_per_second) (hinv : s.TokenInv)
    (hcalls : ∀ c ∈ calls, 0 ≤ c.cost ∧ c.cost ≤ s.max_tokens ∧
      0 ≤ c.elapsed1 ∧ 0 ≤ c.extraSleep)
    (hsplit : calls = pre ++ suf) :
    (s.runAcquires pre).TokenInv := by
  have hpre : ∀ c ∈ pre, 0 ≤ c.cost ∧ c.cost ≤ s.max_tokens ∧
      0 ≤ c.elapsed1 ∧ 0 ≤ c.extraSleep := by
    intro c hc
    exact hcalls c (by rw [hsplit]; exact List.mem_append_left suf hc)
  have h := runAcquires_inv pre s hrate hinv.2 hpre
  rcases h.1.2 with hnil | hres
  · rw [hnil]
    simpa [RateLimiter.runAcquires] using hinv
  · exact hres

/-- Witness for C6: a concrete bucket (rate 2, capacity 5, full) and a
two-call sequence, the second of which must wait; the invariant holds
after the full sequence. -/
theorem C6_witness :
    ((⟨2, 5, 5⟩ : RateLimiter).runAcquires [⟨1, 0, 0⟩, ⟨5, 0, 1⟩]).TokenInv := by
  refine C6_token_invariant ⟨2, 5, 5⟩ [⟨1, 0, 0⟩, ⟨5, 0, 1⟩] [⟨1, 0, 0⟩, ⟨5, 0, 1⟩] []
    (by norm_num) ⟨by norm_num, by norm_num⟩ ?_ (by simp)
  intro c hc
  simp only [List.mem_cons, List.not_mem_nil, or_false] at hc
  rcases hc with rfl | rfl <;> refine ⟨by norm_num, by norm_num, by norm_num, by norm_num⟩

/-- Counterexample to C6 as frozen: a cost of `-1` satisfies the
claim's `cost ≤ capacity` on a full bucket of capacity 10, yet one
`acquire` call leaves 11 tokens, violating `tokens ≤ capacity`. -/
theorem C6_counterexample :
    (-1 : ℚ) ≤ (⟨1, 10, 10⟩ : RateLimiter).max_tokens ∧
    ¬ ((⟨1, 10, 10⟩ : RateLimiter).acquire (-1) 0 0).TokenInv := by
  constructor
  · norm_num
  · intro hinv
    have h := hinv.2
    rw [show (⟨1, 10, 10⟩ : RateLimiter).acquire (-1) 0 0 = ⟨1, 11, 10⟩ by
      unfold RateLimiter.acquire
      norm_num] at h
    norm_num at h

/-- Transient errors (network/timeout) are retryable. -/
theorem transient_retryable (e : ApiErr) (h : e.transient = true) : e.retryable = true := by
  cases e <;> simp_all [ApiErr.transient, ApiErr.retryable]

/-- Unfolding `runRetry` on a retryable failure with retries
remaining: sleep once, recurse, and count one more invocation. -/
theorem runRetry_error_step {α : Type} (h : RetryHandler) (op : ℕ → Except ApiErr α)
    (rand : ℕ → ℚ) (attempt r : ℕ) (e : ApiErr)
    (hop : op attempt = .error e) (hr : e.retryable = true) :
    h.runRetry op rand attempt (r + 1) =
      ((h.runRetry op rand (attempt + 1) r).1,
       (h.runRetry op rand (attempt + 1) r).2.1 + 1,
       h.retryDelay e attempt (rand attempt) :: (h.runRetry op rand (attempt + 1) r).2.2) := by
  rw [RetryHandler.runRetry, hop]
  simp [hr]

/-- Unfolding `runRetry` on a failure with no retries remaining: the
error propagates after exactly one invocation and no sleep. -/
theorem runRetry_error_last {α : Type} (h : RetryHandler) (op : ℕ → Except ApiErr α)
    (rand : ℕ → ℚ) (attempt : ℕ) (e : ApiErr) (hop : op attempt = .error e) :
    h.runRetry op rand attempt 0 = (.error e, 1, []) := by
  rw [RetryHandler.runRetry, hop]
  by_cases hr : e.retryable = true <;> simp [hr]

/-- Claim C2.  With `max_retries = 3`: an operation whose first call
raises a terminal error (not rate-limit, network or timeout) is invoked
exactly once, that error propagates, and no backoff sleep happens; an
operation raising a transient (network/timeout) error on every call is
invoked exactly 4 times, and the error raised to the caller is exactly
the error of the fourth call. -/
theorem C2_retry_exhaustion {α : Type} (h : RetryHandler)
    (op op2 : ℕ → Except ApiErr α) (rand : ℕ → ℚ) (e : ApiErr)
    (hm : h.max_retries = 3) :
    (e.retryable = false → op 0 = .error e →
      h.execute_with_retry op rand = (.error e, 1, [])) ∧
    ((∀ k, k ≤ 3 → ∃ e2, op2 k = .error e2 ∧ e2.transient = true) →
      (h.execute_with_retry op2 rand).1 = op2 3 ∧
      (h.execute_with_retry op2 rand).2.1 = 4) := by
  constructor
  · intro hterm hop0
    rw [RetryHandler.execute_with_retry, hm, RetryHandler.runRetry, hop0]
    simp [hterm]
  · intro htrans
    obtain ⟨e0, h0, t0⟩ := htrans 0 (by omega)
    obtain ⟨e1, h1, t1⟩ := htrans 1 (by omega)
    obtain ⟨e2, h2, t2⟩ := htrans 2 (by omega)
    obtain ⟨e3, h3, t3⟩ := htrans 3 (by omega)
    rw [RetryHandler.execute_with_retry, hm]
    rw [show (3 : ℕ) = 2 + 1 from rfl,
      runRetry_error_step h op2 rand 0 2 e0 h0 (transient_retryable e0 t0)]
    rw [show (2 : ℕ) = 1 + 1 from rfl,
      runRetry_error_step h op2 rand 1 1 e1 h1 (transient_retryable e1 t1)]
    rw [show (1 : ℕ) = 0 + 1 from rfl,
      runRetry_error_step h op2 rand 2 0 e2 h2 (transient_retryable e2 t2)]
    rw [runRetry_error_last h op2 rand 3 e3 h3]
    exact ⟨h3.symm, rfl⟩

/-- Witness for C2 at concrete operations: one always raising a
generic exception (terminal) and one always raising `NetworkError`. -/
theorem C2_witness :
    RetryHandler.execute_with_retry ⟨3, 1, 60, 2, true⟩
        (fun _ => (Except.error (ApiErr.other 5) : Except ApiErr Unit)) (fun _ => 0)
      = (.error (.other 5), 1, []) ∧
    (RetryHandler.execute_with_retry ⟨3, 1, 60, 2, true⟩
        (fun k => (Except.error (ApiErr.network k) : Except ApiErr Unit)) (fun _ => 0)).1
      = .error (.network 3) ∧
    (RetryHandler.execute_with_retry ⟨3, 1, 60, 2, true⟩
        (fun k => (Except.error (ApiErr.network k) : Except ApiErr Unit)) (fun _ => 0)).2.1
      = 4 := by
  have h := C2_retry_exhaustion ⟨3, 1, 60, 2, true⟩
    (fun _ => (Except.error (ApiErr.other 5) : Except ApiErr Unit))
    (fun k => (Except.error (ApiErr.network k) : Except ApiErr Unit))
    (fun _ => 0) (ApiErr.other 5) rfl
  have h2 := h.2 (fun k _ => ⟨ApiErr.network k, rfl, rfl⟩)
  exact ⟨h.1 rfl rfl, h2.1, h2.2⟩

/-- Claim C3, amended.  `calculate_delay` with jitter disabled equals
`min(base_delay * exponential_base ^ n, max_delay)` and never exceeds
`max_delay`; with jitter enabled it equals that value times a factor
`0.5 + rand ∈ [0.5, 1.5)`; the no-jitter delay sequence is
non-decreasing for `exponential_base > 1` provided additionally
`base_delay ≥ 0`; and with jitter enabled the delay is bounded by
`1.5 * max_delay` — not by `max_delay`, because the code applies the
jitter factor after the cap, see the counterexample. -/
theorem C3_backoff_delay (h : RetryHandler) (n : ℕ) (rand : ℚ) :
    (h.jitter = false →
      h.calculate_delay n rand = min (h.base_delay * h.exponential_base ^ n) h.max_delay ∧
      h.calculate_delay n rand ≤ h.max_delay) ∧
    (h.jitter = true → 0 ≤ rand → rand < 1 →
      (1/2 : ℚ) ≤ 1/2 + rand ∧ (1/2 + rand : ℚ) < 3/2 ∧
      h.calculate_delay n rand
        = min (h.base_delay * h.exponential_base ^ n) h.max_delay * (1/2 + rand)) ∧
    (h.jitter = false → 0 ≤ h.base_delay → 1 < h.exponential_base →
      h.calculate_delay n rand ≤ h.calculate_delay (n + 1) rand) ∧
    (h.jitter = true → 0 ≤ h.base_delay → 0 ≤ h.max_delay → 1 < h.exponential_base →
      0 ≤ rand → rand < 1 →
      h.calculate_delay n rand ≤ 3/2 * h.max_delay) := by
  refine ⟨?_, ?_, ?_, ?_⟩
  · intro hj
    unfold RetryHandler.calculate_delay
    rw [hj]
    exact ⟨by simp, by simpa using min_le_right _ _⟩
  · intro hj hr0 hr1
    unfold RetryHandler.calculate_delay
    rw [hj]
    exact ⟨by linarith, by linarith, by simp⟩
  · intro hj hb he
    unfold RetryHandler.calculate_delay
    rw [hj]
    simp only [Bool.false_eq_true, if_false]
    have hpow : h.exponential_base ^ n ≤ h.exponential_base ^ (n + 1) :=
      pow_le_pow_right (by linarith) (by omega)
    exact min_le_min (by nlinarith) le_rfl
  · intro hj hb hM he hr0 hr1
    unfold RetryHandler.calculate_delay
    rw [hj]
    simp only [if_true]
    have hpownn : (0:ℚ) ≤ h.exponential_base ^ n := pow_nonneg (by linarith) n
    have hd0 : (0:ℚ) ≤ min (h.base_delay * h.exponential_base ^ n) h.max_delay :=
      le_min (by nlinarith) hM
    have hdM : min (h.base_delay * h.exponential_base ^ n) h.max_delay ≤ h.max_delay :=
      min_le_right _ _
    nlinarith

/-- Witness for C3 at concrete configurations, covering both the
jitter-off conjuncts (value, cap, monotonicity) and the jitter-on
conjuncts (factored value and the 1.5×cap bound). -/
theorem C3_witness :
    RetryHandler.calculate_delay ⟨3, 1, 60, 2, false⟩ 2 0 = min ((1:ℚ) * 2 ^ 2) 60 ∧
    RetryHandler.calculate_delay ⟨3, 1, 60, 2, false⟩ 2 0 ≤ 60 ∧
    RetryHandler.calculate_delay ⟨3, 1, 60, 2, false⟩ 2 0
      ≤ RetryHandler.calculate_delay ⟨3, 1, 60, 2, false⟩ 3 0 ∧
    RetryHandler.calculate_delay ⟨3, 1, 4, 2, true⟩ 10 (9/10)
      = min ((1:ℚ) * 2 ^ 10) 4 * (1/2 + 9/10) ∧
    RetryHandler.calculate_delay ⟨3, 1, 4, 2, true⟩ 10 (9/10) ≤ 3/2 * 4 := by
  have hoff := C3_backoff_delay ⟨3, 1, 60, 2, false⟩ 2 0
  have hon := C3_backoff_delay ⟨3, 1, 4, 2, true⟩ 10 (9/10)
  refine ⟨(hoff.1 rfl).1, (hoff.1 rfl).2, ?_, ?_, ?_⟩
  · exact hoff.2.2.1 rfl (by norm_num) (by norm_num)
  · exact (hon.2.1 rfl (by norm_num) (by norm_num)).2.2
  · exact hon.2.2.2 rfl (by norm_num) (by norm_num) (by norm_num) (by norm_num) (by norm_num)

/-- Counterexample to C3 as frozen: with `base_delay = 1`,
`exponential_base = 2`, `max_delay = 4`, jitter on and a random draw
of 0.9, attempt 10 sleeps `4 * 1.4 = 5.6 > max_delay`; and with a
negative `base_delay = -1` (jitter off) the delay sequence decreases
from attempt 0 to attempt 1. -/
theorem C3_counterexample :
    RetryHandler.calculate_delay ⟨3, 1, 4, 2, true⟩ 10 (9/10)
        > (⟨3, 1, 4, 2, true⟩ : RetryHandler).max_delay ∧
    RetryHandler.calculate_delay ⟨3, -1, 60, 2, false⟩ 1 0
        < RetryHandler.calculate_delay ⟨3, -1, 60, 2, false⟩ 0 0 := by
  constructor
  · show RetryHandler.calculate_delay ⟨3, 1, 4, 2, true⟩ 10 (9/10) > 4
    unfold RetryHandler.calculate_delay
    norm_num
  · unfold RetryHandler.calculate_delay
    norm_num

/-! ## Lemmas and theorems: transport -/

/-- Claim C9.  An inbound envelope with no `method` but an `id`
(response-shaped) is answered by `handle_message` with a
`-32601` error whose text formats Python `None`:
`"Method not found: None"` — it is not ignored. -/
theorem C9_response_shaped_not_ignored (handlers : List (String × Handler))
    (m : Message) (i : ℤ) (hm : m.method = none) (hid : m.id = some i) :
    handle_message handlers m
      = [send_response i none (some (errObj (-32601) "Method not found: None"))] := by
  obtain ⟨j, mid, mm, mp, mr, me⟩ := m
  simp only [] at hm hid
  subst hm
  subst hid
  simp [handle_message, pyStrOfMethod]

/-- Witness for C9 at the concrete envelope `{"id": 7}` with an empty
registry. -/
theorem C9_witness :
    handle_message [] ⟨"2.0", some 7, none, none, none, none⟩
      = [send_response 7 none (some (errObj (-32601) "Method not found: None"))] :=
  C9_response_shaped_not_ignored [] ⟨"2.0", some 7, none, none, none, none⟩ 7 rfl rfl

/-- Claim C10.  For every message with `result = None` and
`error = None`, the `data` dict serialised by `write_message` contains
neither a `result` nor an `error` key — `None`-valued fields are
omitted — and `send_response(i)` with a `None` result (as produced
when a handler returns `None`) serialises to the bare envelope
`{"jsonrpc": "2.0", "id": i}`. -/
theorem C10_none_result_omitted (m : Message) (hr : m.result = none) (he : m.error = none) :
    hasKeyO "result" m.buildData = false ∧
    hasKeyO "error" m.buildData = false ∧
    ∀ i : ℤ, (send_response i none none).buildData
      = .ocons "jsonrpc" (.jstr "2.0") (.ocons "id" (.jnum i) .onil) := by
  obtain ⟨j, mid, mm, mp, mr, me⟩ := m
  simp only [] at hr he
  subst hr
  subst he
  refine ⟨?_, ?_, fun i => rfl⟩ <;>
    cases mid <;> cases mm <;> cases mp <;>
      simp [Message.buildData, jobjAppend, optEntry, hasKeyO]

/-- Witness for C10 at the response `send_response 7 None None`. -/
theorem C10_witness :
    hasKeyO "result" (send_response 7 none none).buildData = false ∧
    hasKeyO "error" (send_response 7 none none).buildData = false := by
  have h := C10_none_result_omitted (send_response 7 none none) rfl rfl
  exact ⟨h.1, h.2.1⟩

/-- While an escape is pending, any character is consumed without
structural effect. -/
theorem scanStep_escape (st : ScanSt) (c : Char) (he : st.escape_next = true) :
    scanStep st c = (⟨st.depth, st.in_string, false⟩, false) := by
  unfold scanStep
  rw [if_pos he]

/-- Inside a string, a character other than quote and backslash leaves
the scanner state unchanged. -/
theorem scanStep_inString_other (d : ℤ) (c : Char) (h1 : c ≠ '"') (h2 : c ≠ '\\') :
    scanStep ⟨d, true, false⟩ c = (⟨d, true, false⟩, false) := by
  simp [scanStep, h1, h2]

/-- Inside a string, a backslash arms the escape flag. -/
theorem scanStep_backslash_inString (d : ℤ) :
    scanStep ⟨d, true, false⟩ '\\' = (⟨d, true, true⟩, false) := by
  simp [scanStep]

/-- A quote outside a string opens one. -/
theorem scanStep_quote_open (d : ℤ) :
    scanStep ⟨d, false, false⟩ '"' = (⟨d, true, false⟩, false) := by
  simp [scanStep]

/-- A quote inside a string closes it. -/
theorem scanStep_quote_close (d : ℤ) :
    scanStep ⟨d, true, false⟩ '"' = (⟨d, false, false⟩, false) := by
  simp [scanStep]

/-- An opening brace outside a string increments the depth. -/
theorem scanStep_open_brace (d : ℤ) :
    scanStep ⟨d, false, false⟩ '\x7b' = (⟨d + 1, false, false⟩, false) := by
  simp [scanStep]

/-- A closing brace outside a string decrements the depth and signals
completion exactly when the depth reaches zero. -/
theorem scanStep_close_brace (d : ℤ) :
    scanStep ⟨d, false, false⟩ '\x7d' = (⟨d - 1, false, false⟩, decide (d - 1 = 0)) := by
  simp [scanStep]

/-- Inert characters never change the scanner state (in any string
state, provided no escape is pending). -/
theorem scanStep_inert (st : ScanSt) (c : Char) (hi : inertChar c = true)
    (he : st.escape_next = false) : scanStep st c = (st, false) := by
  simp only [inertChar, decide_eq_true_eq] at hi
  obtain ⟨h1, h2, h3, h4⟩ := hi
  simp [scanStep, h1, h2, h3, h4, he]

/-- Unfolding `scanRun` over one non-completing character. -/
theorem scanRun_cons_no (st st2 : ScanSt) (c : Char) (cs : List Char)
    (h : scanStep st c = (st2, false)) : scanRun st (c :: cs) = scanRun st2 cs := by
  simp [scanRun, h]

/-- A non-completing scan of `a` composes with the scan of what
follows. -/
theorem scanRun_append (a : List Char) : ∀ (st st1 : ScanSt) (b : List Char),
    scanRun st a = (st1, false) → scanRun st (a ++ b) = scanRun st1 b := by
  induction a with
  | nil =>
    intro st st1 b h
    simp only [scanRun] at h
    injection h with h1 h2
    subst h1
    simp
  | cons c tl ih =>
    intro st st1 b h
    simp only [scanRun] at h
    by_cases hp : (scanStep st c).2 = true
    · rw [if_pos hp] at h
      exact absurd (congrArg Prod.snd h) (by simp)
    · rw [if_neg hp] at h
      simp only [List.cons_append, scanRun]
      rw [if_neg hp]
      exact ih _ _ _ h

/-- A non-completing scan of `a` lets `read_message` pass over `a`,
extending the buffer. -/
theorem read_message_append (a : List Char) : ∀ (buf : List Char) (st st1 : ScanSt)
    (b : List Char), scanRun st a = (st1, false) →
    read_message buf st (a ++ b) = read_message (buf ++ a) st1 b := by
  induction a with
  | nil =>
    intro buf st st1 b h
    simp only [scanRun] at h
    injection h with h1 h2
    subst h1
    simp
  | cons c tl ih =>
    intro buf st st1 b h
    simp only [scanRun] at h
    by_cases hp : (scanStep st c).2 = true
    · rw [if_pos hp] at h
      exact absurd (congrArg Prod.snd h) (by simp)
    · rw [if_neg hp] at h
      simp only [List.cons_append, read_message]
      rw [if_neg (fun hh => hp hh.1)]
      show read_message (buf ++ [c]) (scanStep st c).1 (tl ++ b) = _
      rw [ih (buf ++ [c]) (scanStep st c).1 st1 b h]
      congr 1
      simp

/-- Scanning the escaped body of a string neither completes nor leaves
the in-string state. -/
theorem scanRun_escChars (s : List Char) : ∀ d : ℤ,
    scanRun ⟨d, true, false⟩ (escChars s) = (⟨d, true, false⟩, false) := by
  induction s with
  | nil => intro d; rfl
  | cons c tl ih =>
    intro d
    by_cases h1 : c = '"'
    · subst h1
      show scanRun ⟨d, true, false⟩ ('\\' :: '"' :: escChars tl) = _
      rw [scanRun_cons_no _ _ _ _ (scanStep_backslash_inString d),
        scanRun_cons_no _ _ _ _ (scanStep_escape ⟨d, true, true⟩ '"' rfl)]
      exact ih d
    · by_cases h2 : c = '\\'
      · subst h2
        show scanRun ⟨d, true, false⟩ ('\\' :: '\\' :: escChars tl) = _
        rw [scanRun_cons_no _ _ _ _ (scanStep_backslash_inString d),
          scanRun_cons_no _ _ _ _ (scanStep_escape ⟨d, true, true⟩ '\\' rfl)]
        exact ih d
      · show scanRun ⟨d, true, false⟩ (escChar c ++ escChars tl) = _
        rw [show escChar c = [c] by simp [escChar, h1, h2]]
        rw [List.singleton_append,
          scanRun_cons_no _ _ _ _ (scanStep_inString_other d c h1 h2)]
        exact ih d

/-- A run of inert characters never completes and keeps the state. -/
theorem scanRun_inert (cs : List Char) : ∀ st : ScanSt,
    (∀ c ∈ cs, inertChar c = true) → st.escape_next = false →
    scanRun st cs = (st, false) := by
  induction cs with
  | nil => intro st _ _; rfl
  | cons c tl ih =>
    intro st hall he
    rw [scanRun_cons_no _ _ _ _ (scanStep_inert st c (hall c (List.mem_cons_self c tl)) he)]
    exact ih st (fun d hd => hall d (List.mem_cons_of_mem c hd)) he

/-- Digits 0–9 print as digit characters. -/
theorem digitChar_isDigit (d : ℕ) (h : d < 10) : isDigitChar (digitChar d) = true := by
  interval_cases d <;> decide

/-- Every character printed by `natToCharsAux` is a digit. -/
theorem natToCharsAux_digits (fuel : ℕ) : ∀ (n : ℕ) (c : Char),
    c ∈ natToCharsAux fuel n → isDigitChar c = true := by
  induction fuel with
  | zero => intro n c hc; simp [natToCharsAux] at hc
  | succ f ih =>
    intro n c hc
    by_cases hn : n = 0
    · simp [natToCharsAux, hn] at hc
    · rw [natToCharsAux, if_neg hn] at hc
      rcases List.mem_append.mp hc with h | h
      · exact ih (n / 10) c h
      · rw [List.mem_singleton.mp h]
        exact digitChar_isDigit (n % 10) (Nat.mod_lt n (by norm_num))

/-- Every character printed by `natToChars` is a digit. -/
theorem natToChars_digits (n : ℕ) (c : Char) (h : c ∈ natToChars n) :
    isDigitChar c = true := by
  by_cases hn : n = 0
  · rw [natToChars, if_pos hn] at h
    rw [List.mem_singleton.mp h]
    decide
  · rw [natToChars, if_neg hn] at h
    exact natToCharsAux_digits (n + 1) n c h

/-- Digit characters are inert for the scanner. -/
theorem digit_inert (c : Char) (h : isDigitChar c = true) : inertChar c = true := by
  simp only [inertChar, decide_eq_true_eq]
  refine ⟨fun he => ?_, fun he => ?_, fun he => ?_, fun he => ?_⟩ <;>
    (subst he; exact absurd h (by decide))

/-- Digit characters are not whitespace. -/
theorem digit_not_ws (c : Char) (h : isDigitChar c = true) : isWsChar c = false := by
  cases hw : isWsChar c
  · rfl
  · exfalso
    simp only [isWsChar, decide_eq_true_eq] at hw
    rcases hw with rfl | rfl | rfl | rfl <;> exact absurd h (by decide)

/-- Every character of a printed integer is inert. -/
theorem intToChars_inert (n : ℤ) (c : Char) (h : c ∈ intToChars n) :
    inertChar c = true := by
  cases n with
  | ofNat m => exact digit_inert c (natToChars_digits m c h)
  | negSucc m =>
    rcases List.mem_cons.mp h with rfl | h2
    · decide
    · exact digit_inert c (natToChars_digits (m + 1) c h2)

mutual
/-- Scanning a serialised JSON value from depth ≥ 1 (outside any
string, no escape pending) never completes and restores the scanner
state. -/
theorem scanRun_dumpV : ∀ (v : JValue) (d : ℤ), 1 ≤ d →
    scanRun ⟨d, false, false⟩ (dumpV v) = (⟨d, false, false⟩, false)
  | .jnull, d, _ => by
    refine scanRun_inert _ _ (fun c hc => ?_) rfl
    simp only [dumpV, List.mem_cons, List.not_mem_nil, or_false] at hc
    rcases hc with rfl | rfl | rfl | rfl <;> decide
  | .jbool true, d, _ => by
    refine scanRun_inert _ _ (fun c hc => ?_) rfl
    simp only [dumpV, List.mem_cons, List.not_mem_nil, or_false] at hc
    rcases hc with rfl | rfl | rfl | rfl <;> decide
  | .jbool false, d, _ => by
    refine scanRun_inert _ _ (fun c hc => ?_) rfl
    simp only [dumpV, List.mem_cons, List.not_mem_nil, or_false] at hc
    rcases hc with rfl | rfl | rfl | rfl | rfl <;> decide
  | .jnum n, d, _ => by
    exact scanRun_inert _ _ (fun c hc => intToChars_inert n c hc) rfl
  | .jstr s, d, _ => by
    show scanRun ⟨d, false, false⟩ ('"' :: (escChars s.data ++ ['"'])) = _
    rw [scanRun_cons_no _ _ _ _ (scanStep_quote_open d),
      scanRun_append (escChars s.data) _ _ _ (scanRun_escChars s.data d),
      scanRun_cons_no _ _ _ _ (scanStep_quote_close d)]
    rfl
  | .jarr xs, d, hd => by
    show scanRun ⟨d, false, false⟩ ('[' :: (dumpElems xs ++ [']'])) = _
    rw [scanRun_cons_no _ _ _ _ (scanStep_inert _ '[' (by decide) rfl),
      scanRun_append (dumpElems xs) _ _ _ (scanRun_dumpElems xs d hd),
      scanRun_cons_no _ _ _ _ (scanStep_inert _ ']' (by decide) rfl)]
    rfl
  | .jobj kvs, d, hd => by
    show scanRun ⟨d, false, false⟩ ('\x7b' :: (dumpMembers kvs ++ ['\x7d'])) = _
    have hcl : scanStep ⟨d + 1, false, false⟩ '\x7d' = (⟨d, false, false⟩, false) := by
      rw [scanStep_close_brace (d + 1)]
      rw [show d + 1 - 1 = d by omega, decide_eq_false_iff_not.mpr (show ¬ d = 0 by omega)]
    rw [scanRun_cons_no _ _ _ _ (scanStep_open_brace d),
      scanRun_append (dumpMembers kvs) _ _ _ (scanRun_dumpMembers kvs (d + 1) (by omega)),
      scanRun_cons_no _ _ _ _ hcl]
    rfl

/-- Element-list version of `scanRun_dumpV`. -/
theorem scanRun_dumpElems : ∀ (xs : JArr) (d : ℤ), 1 ≤ d →
    scanRun ⟨d, false, false⟩ (dumpElems xs) = (⟨d, false, false⟩, false)
  | .anil, d, _ => by rfl
  | .acons v .anil, d, hd => by
    show scanRun ⟨d, false, false⟩ (dumpV v) = _
    exact scanRun_dumpV v d hd
  | .acons v (.acons w tl), d, hd => by
    show scanRun ⟨d, false, false⟩ (dumpV v ++ ',' :: ' ' :: dumpElems (.acons w tl)) = _
    rw [scanRun_append (dumpV v) _ _ _ (scanRun_dumpV v d hd),
      scanRun_cons_no _ _ _ _ (scanStep_inert _ ',' (by decide) rfl),
      scanRun_cons_no _ _ _ _ (scanStep_inert _ ' ' (by decide) rfl)]
    exact scanRun_dumpElems (.acons w tl) d hd

/-- Member-list version of `scanRun_dumpV`. -/
theorem scanRun_dumpMembers : ∀ (kvs : JObj) (d : ℤ), 1 ≤ d →
    scanRun ⟨d, false, false⟩ (dumpMembers kvs) = (⟨d, false, false⟩, false)
  | .onil, d, _ => by rfl
  | .ocons k v .onil, d, hd => by
    show scanRun ⟨d, false, false⟩ ('"' :: (escChars k.data ++ '"' :: ':' :: ' ' :: dumpV v)) = _
    rw [scanRun_cons_no _ _ _ _ (scanStep_quote_open d),
      scanRun_append (escChars k.data) _ _ _ (scanRun_escChars k.data d),
      scanRun_cons_no _ _ _ _ (scanStep_quote_close d),
      scanRun_cons_no _ _ _ _ (scanStep_inert _ ':' (by decide) rfl),
      scanRun_cons_no _ _ _ _ (scanStep_inert _ ' ' (by decide) rfl)]
    exact scanRun_dumpV v d hd
  | .ocons k v (.ocons k2 v2 tl), d, hd => by
    show scanRun ⟨d, false, false⟩
        (('"' :: (escChars k.data ++ '"' :: ':' :: ' ' :: dumpV v)) ++ ',' :: ' ' ::
          dumpMembers (.ocons k2 v2 tl)) = _
    rw [scanRun_append _ _ _ _ (by
        rw [scanRun_cons_no _ _ _ _ (scanStep_quote_open d),
          scanRun_append (escChars k.data) _ _ _ (scanRun_escChars k.data d),
          scanRun_cons_no _ _ _ _ (scanStep_quote_close d),
          scanRun_cons_no _ _ _ _ (scanStep_inert _ ':' (by decide) rfl),
          scanRun_cons_no _ _ _ _ (scanStep_inert _ ' ' (by decide) rfl)]
        exact scanRun_dumpV v d hd),
      scanRun_cons_no _ _ _ _ (scanStep_inert _ ',' (by decide) rfl),
      scanRun_cons_no _ _ _ _ (scanStep_inert _ ' ' (by decide) rfl)]
    exact scanRun_dumpMembers (.ocons k2 v2 tl) d hd
end

/-- Codepoint of a printed digit. -/
theorem digitChar_toNat (d : ℕ) (h : d < 10) : (digitChar d).toNat = 48 + d := by
  interval_cases d <;> decide

/-- `parseDigits` stops on a non-digit (or empty) remainder. -/
theorem parseDigits_stop (acc : ℕ) (rest : List Char) (h : noLeadingDigit rest = true) :
    parseDigits acc rest = (acc, rest) := by
  cases rest with
  | nil => rfl
  | cons c tl =>
    simp only [noLeadingDigit, Bool.not_eq_eq_eq_not, Bool.not_true] at h
    simp [parseDigits, h]

/-- `parseDigits` folds a block of digits and stops at the remainder. -/
theorem parseDigits_digits (ds : List Char) : ∀ (acc : ℕ) (rest : List Char),
    (∀ c ∈ ds, isDigitChar c = true) → noLeadingDigit rest = true →
    parseDigits acc (ds ++ rest)
      = (ds.foldl (fun a c => a * 10 + (c.toNat - 48)) acc, rest) := by
  induction ds with
  | nil => intro acc rest _ hrest; simpa using parseDigits_stop acc rest hrest
  | cons c tl ih =>
    intro acc rest hall hrest
    have hc := hall c (List.mem_cons_self c tl)
    simp only [List.cons_append, parseDigits, hc, if_true, List.foldl_cons]
    exact ih _ rest (fun d hd => hall d (List.mem_cons_of_mem c hd)) hrest

/-- Folding the digits printed by `natToCharsAux` recovers the
number. -/
theorem foldl_natToCharsAux (fuel : ℕ) : ∀ (n acc : ℕ), n ≤ fuel →
    (natToCharsAux fuel n).foldl (fun a c => a * 10 + (c.toNat - 48)) acc
      = acc * 10 ^ (natToCharsAux fuel n).length + n := by
  induction fuel with
  | zero =>
    intro n acc hn
    interval_cases n
    simp [natToCharsAux]
  | succ f ih =>
    intro n acc hn
    by_cases hz : n = 0
    · simp [natToCharsAux, hz]
    · rw [natToCharsAux, if_neg hz, List.foldl_append]
      have hdiv : n / 10 ≤ f := by
        have h1 : n / 10 < n := Nat.div_lt_self (Nat.pos_of_ne_zero hz) (by norm_num)
        omega
      rw [ih (n / 10) acc hdiv]
      simp only [List.foldl_cons, List.foldl_nil, List.length_append, List.length_cons,
        List.length_nil]
      rw [digitChar_toNat (n % 10) (Nat.mod_lt n (by norm_num))]
      have hmod : 48 + n % 10 - 48 = n % 10 := by omega
      rw [hmod, pow_succ]
      have hdm : n / 10 * 10 + n % 10 = n := by omega
      have hring : (acc * 10 ^ (natToCharsAux f (n / 10)).length + n / 10) * 10 + n % 10
          = acc * (10 ^ (natToCharsAux f (n / 10)).length * 10) + (n / 10 * 10 + n % 10) := by
        ring
      rw [hring, hdm]

/-- `natToChars` prints a nonempty string. -/
theorem natToChars_ne_nil (n : ℕ) : natToChars n ≠ [] := by
  by_cases hz : n = 0
  · simp [natToChars, hz]
  · rw [natToChars, if_neg hz, natToCharsAux, if_neg hz]
    simp

/-- Parsing the printed decimal digits of a natural number recovers
it. -/
theorem parseDigits_natToChars (n : ℕ) (rest : List Char) (hrest : noLeadingDigit rest = true) :
    parseDigits 0 (natToChars n ++ rest) = (n, rest) := by
  by_cases hz : n = 0
  · subst hz
    rw [natToChars, if_pos rfl]
    simpa using parseDigits_digits ['0'] 0 rest (by intro c hc; simp at hc; subst hc; decide) hrest
  · rw [natToChars, if_neg hz,
      parseDigits_digits _ 0 rest (fun c hc => natToCharsAux_digits (n + 1) n c hc) hrest,
      foldl_natToCharsAux (n + 1) n 0 (by omega)]
    simp

/-- The head of `natToChars` is a digit. -/
theorem natToChars_head (n : ℕ) : ∃ c cs, natToChars n = c :: cs ∧ isDigitChar c = true := by
  cases hh : natToChars n with
  | nil => exact absurd hh (natToChars_ne_nil n)
  | cons c cs =>
    exact ⟨c, cs, rfl, natToChars_digits n c (by rw [hh]; exact List.mem_cons_self c cs)⟩

/-- A digit character is none of the structural first characters the
value parser tests for, nor a minus sign, nor a closing bracket or
brace or comma. -/
theorem digit_ne_specials (c : Char) (h : isDigitChar c = true) :
    c ≠ 'n' ∧ c ≠ 't' ∧ c ≠ 'f' ∧ c ≠ '"' ∧ c ≠ '[' ∧ c ≠ '\x7b' ∧ c ≠ '-' ∧
    c ≠ ']' ∧ c ≠ '\x7d' ∧ c ≠ ',' := by
  refine ⟨?_, ?_, ?_, ?_, ?_, ?_, ?_, ?_, ?_, ?_⟩ <;>
    exact fun he => absurd h (by subst he; decide)

/-- Parsing a printed integer recovers it. -/
theorem parseIntChars_intToChars (m : ℤ) (rest : List Char)
    (hrest : noLeadingDigit rest = true) :
    parseIntChars (intToChars m ++ rest) = some (m, rest) := by
  cases m with
  | ofNat n =>
    obtain ⟨c, cs, heq, hdig⟩ := natToChars_head n
    show parseIntChars (natToChars n ++ rest) = some ((n : ℤ), rest)
    rw [heq, List.cons_append]
    simp only [parseIntChars]
    rw [if_neg (digit_ne_specials c hdig).2.2.2.2.2.2.1, if_pos hdig]
    have hp : parseDigits 0 (c :: (cs ++ rest)) = (n, rest) := by
      rw [show c :: (cs ++ rest) = (c :: cs) ++ rest from rfl, ← heq]
      exact parseDigits_natToChars n rest hrest
    simp [hp]
  | negSucc n =>
    obtain ⟨c, cs, heq, hdig⟩ := natToChars_head (n + 1)
    show parseIntChars ('-' :: (natToChars (n + 1) ++ rest)) = some (Int.negSucc n, rest)
    rw [heq, List.cons_append]
    simp only [parseIntChars, if_true]
    rw [if_pos hdig]
    have hp : parseDigits 0 (c :: (cs ++ rest)) = (n + 1, rest) := by
      rw [show c :: (cs ++ rest) = (c :: cs) ++ rest from rfl, ← heq]
      exact parseDigits_natToChars (n + 1) rest hrest
    simp [hp, Int.negSucc_eq]

/-- Parsing the escaped body of a string (plus closing quote) recovers
the characters. -/
theorem parseStrChars_escChars (s : List Char) : ∀ rest : List Char,
    parseStrChars (escChars s ++ '"' :: rest) = some (s, rest) := by
  induction s with
  | nil => intro rest; rfl
  | cons c tl ih =>
    intro rest
    by_cases h1 : c = '"'
    · subst h1
      show parseStrAux false ('\\' :: '"' :: (escChars tl ++ '"' :: rest)) = _
      rw [parseStrAux, if_neg (by decide), if_pos rfl, parseStrAux]
      have hih : parseStrAux false (escChars tl ++ '"' :: rest) = some (tl, rest) := ih rest
      simp [unescChar, hih]
    · by_cases h2 : c = '\\'
      · subst h2
        show parseStrAux false ('\\' :: '\\' :: (escChars tl ++ '"' :: rest)) = _
        rw [parseStrAux, if_neg (by decide), if_pos rfl, parseStrAux]
        have hih : parseStrAux false (escChars tl ++ '"' :: rest) = some (tl, rest) := ih rest
        simp [unescChar, hih]
      · have hesc : escChars (c :: tl) ++ '"' :: rest = c :: (escChars tl ++ '"' :: rest) := by
          simp [escChars, escChar, h1, h2]
        rw [show parseStrChars = parseStrAux false from rfl] at ih ⊢
        rw [hesc, parseStrAux, if_neg h1, if_neg h2]
        simp [ih rest]

/-- `skipWs` passes over a non-whitespace head. -/
theorem skipWs_cons_notWs (c : Char) (X : List Char) (h : isWsChar c = false) :
    skipWs (c :: X) = c :: X := by
  simp [skipWs, h]

/-- A remainder headed by a non-digit cannot extend a number. -/
theorem noLeadingDigit_cons (c : Char) (rest : List Char) (h : isDigitChar c = false) :
    noLeadingDigit (c :: rest) = true := by
  simp [noLeadingDigit, h]

/-- The head character of a printed integer: never whitespace and never
one of the parser's branch characters. -/
theorem intToChars_head (n : ℤ) : ∃ c cs, intToChars n = c :: cs ∧ isWsChar c = false ∧
    c ≠ 'n' ∧ c ≠ 't' ∧ c ≠ 'f' ∧ c ≠ '"' ∧ c ≠ '[' ∧ c ≠ '\x7b' := by
  cases n with
  | ofNat m =>
    obtain ⟨c, cs, heq, hdig⟩ := natToChars_head m
    refine ⟨c, cs, heq, digit_not_ws c hdig, ?_, ?_, ?_, ?_, ?_, ?_⟩ <;>
      exact fun he => absurd hdig (by subst he; decide)
  | negSucc m =>
    exact ⟨'-', natToChars (m + 1), rfl, by decide, by decide, by decide, by decide,
      by decide, by decide, by decide⟩

/-- The head character of a serialised JSON value: never whitespace,
never a closing bracket or closing brace. -/
theorem dumpV_head (v : JValue) : ∃ c cs, dumpV v = c :: cs ∧ isWsChar c = false ∧
    c ≠ ']' ∧ c ≠ '\x7d' := by
  cases v with
  | jnum n =>
    cases n with
    | ofNat m =>
      obtain ⟨c, cs, heq, hdig⟩ := natToChars_head m
      refine ⟨c, cs, heq, digit_not_ws c hdig, ?_, ?_⟩
      · exact (digit_ne_specials c hdig).2.2.2.2.2.2.2.1
      · exact (digit_ne_specials c hdig).2.2.2.2.2.2.2.2.1
    | negSucc m =>
      refine ⟨'-', natToChars (m + 1), rfl, ?_, ?_, ?_⟩ <;> decide
  | jnull => refine ⟨'n', _, rfl, ?_, ?_, ?_⟩ <;> decide
  | jbool b =>
    rcases b with - | -
    · refine ⟨'f', _, rfl, ?_, ?_, ?_⟩ <;> decide
    · refine ⟨'t', _, rfl, ?_, ?_, ?_⟩ <;> decide
  | jstr s => refine ⟨'"', _, rfl, ?_, ?_, ?_⟩ <;> decide
  | jarr xs => refine ⟨'[', _, rfl, ?_, ?_, ?_⟩ <;> decide
  | jobj kvs => refine ⟨'\x7b', _, rfl, ?_, ?_, ?_⟩ <;> decide

/-- `parseValue` skips a leading space. -/
theorem parseValue_space (fuel : ℕ) (X : List Char) :
    parseValue fuel (' ' :: X) = parseValue fuel X := by
  cases fuel with
  | zero => rfl
  | succ f =>
    simp only [parseValue]
    rw [show skipWs (' ' :: X) = skipWs X by simp [skipWs, isWsChar]]

/-- `parseElems` skips a leading space (its first action is
`parseValue`). -/
theorem parseElems_space (fuel : ℕ) (X : List Char) :
    parseElems fuel (' ' :: X) = parseElems fuel X := by
  cases fuel with
  | zero => rfl
  | succ f =>
    simp only [parseElems, parseValue_space]

/-- Every value needs at least one unit of parser fuel. -/
theorem szV_pos (v : JValue) : 1 ≤ szV v := by
  cases v <;> simp [szV] <;> omega

mutual
/-- The fuel budget of a value is covered by twice its printed
length. -/
theorem szLeV : ∀ v : JValue, szV v ≤ 2 * (dumpV v).length
  | .jnull => by simp [szV, dumpV]
  | .jbool true => by simp [szV, dumpV]
  | .jbool false => by simp [szV, dumpV]
  | .jnum n => by
    obtain ⟨c, cs, heq, -⟩ := intToChars_head n
    simp [szV, dumpV, heq]
    omega
  | .jstr s => by simp [szV, dumpV]; omega
  | .jarr xs => by
    have h := szLeA xs
    simp only [szV, dumpV, List.length_cons, List.length_append, List.length_singleton]
    omega
  | .jobj kvs => by
    have h := szLeO kvs
    simp only [szV, dumpV, List.length_cons, List.length_append, List.length_singleton]
    omega

/-- Element-list version of `szLeV`. -/
theorem szLeA : ∀ xs : JArr, szA xs ≤ 2 * (dumpElems xs).length + 2
  | .anil => by simp [szA, dumpElems]
  | .acons v .anil => by
    have h := szLeV v
    simp only [szA, szA.eq_1, dumpElems, List.length_append]
    simp [szA]
    omega
  | .acons v (.acons w tl) => by
    have h1 := szLeV v
    have h2 := szLeA (.acons w tl)
    show szV v + szA (.acons w tl) + 1
        ≤ 2 * (dumpV v ++ ',' :: ' ' :: dumpElems (.acons w tl)).length + 2
    simp only [List.length_append, List.length_cons]
    omega

/-- Member-list version of `szLeV`. -/
theorem szLeO : ∀ kvs : JObj, szO kvs ≤ 2 * (dumpMembers kvs).length + 2
  | .onil => by simp [szO, dumpMembers]
  | .ocons k v .onil => by
    have h := szLeV v
    simp only [szO, dumpMembers, List.length_append, List.length_cons]
    simp [szO]
    omega
  | .ocons k v (.ocons k2 v2 tl) => by
    have h1 := szLeV v
    have h2 := szLeO (.ocons k2 v2 tl)
    show szV v + szO (.ocons k2 v2 tl) + 1
        ≤ 2 * (('"' :: (escChars k.data ++ '"' :: ':' :: ' ' :: dumpV v)) ++ ',' :: ' ' ::
            dumpMembers (.ocons k2 v2 tl)).length + 2
    simp only [List.length_append, List.length_cons]
    omega
end

/-- A nonempty element list prints as its first value followed by a
tail. -/
theorem dumpElems_acons (v : JValue) (tl : JArr) :
    ∃ T, dumpElems (.acons v tl) = dumpV v ++ T := by
  cases tl with
  | anil => exact ⟨[], by simp [dumpElems]⟩
  | acons w tl2 => exact ⟨',' :: ' ' :: dumpElems (.acons w tl2), rfl⟩

/-- A nonempty member list prints starting with a quote. -/
theorem dumpMembers_ocons (k : String) (v : JValue) (tl : JObj) :
    ∃ M, dumpMembers (.ocons k v tl) = '"' :: M := by
  cases tl with
  | onil => exact ⟨escChars k.data ++ '"' :: ':' :: ' ' :: dumpV v, rfl⟩
  | ocons k2 v2 tl2 =>
    exact ⟨(escChars k.data ++ '"' :: ':' :: ' ' :: dumpV v) ++ ',' :: ' ' ::
      dumpMembers (.ocons k2 v2 tl2), rfl⟩

mutual
/-- Round trip: parsing a serialised value consumes exactly its
characters and returns the value, for any fuel at least its size
budget and any remainder that cannot extend a number. -/
theorem parsesV : ∀ (v : JValue) (fuel : ℕ) (rest : List Char), szV v ≤ fuel →
    noLeadingDigit rest = true → parseValue fuel (dumpV v ++ rest) = some (v, rest)
  | .jnull, fuel, rest, hsz, _ => by
    obtain ⟨f, rfl⟩ : ∃ f, fuel = f + 1 := ⟨fuel - 1, by have := szV_pos .jnull; omega⟩
    show parseValue (f + 1) ('n' :: 'u' :: 'l' :: 'l' :: rest) = _
    simp only [parseValue]
    rw [skipWs_cons_notWs _ _ (by decide)]
    simp
  | .jbool true, fuel, rest, hsz, _ => by
    obtain ⟨f, rfl⟩ : ∃ f, fuel = f + 1 := ⟨fuel - 1, by have := szV_pos (.jbool true); omega⟩
    show parseValue (f + 1) ('t' :: 'r' :: 'u' :: 'e' :: rest) = _
    simp only [parseValue]
    rw [skipWs_cons_notWs _ _ (by decide)]
    simp
  | .jbool false, fuel, rest, hsz, _ => by
    obtain ⟨f, rfl⟩ : ∃ f, fuel = f + 1 := ⟨fuel - 1, by have := szV_pos (.jbool false); omega⟩
    show parseValue (f + 1) ('f' :: 'a' :: 'l' :: 's' :: 'e' :: rest) = _
    simp only [parseValue]
    rw [skipWs_cons_notWs _ _ (by decide)]
    simp
  | .jnum n, fuel, rest, hsz, hrest => by
    obtain ⟨f, rfl⟩ : ∃ f, fuel = f + 1 := ⟨fuel - 1, by have := szV_pos (.jnum n); omega⟩
    obtain ⟨c, cs, heq, hws, h1, h2, h3, h4, h5, h6⟩ := intToChars_head n
    show parseValue (f + 1) (intToChars n ++ rest) = some (.jnum n, rest)
    rw [heq, List.cons_append]
    simp only [parseValue]
    rw [skipWs_cons_notWs _ _ hws]
    simp only [h1, h2, h3, h4, h5, h6, if_false]
    rw [show c :: (cs ++ rest) = intToChars n ++ rest by rw [heq, List.cons_append],
      parseIntChars_intToChars n rest hrest]
  | .jstr s, fuel, rest, hsz, _ => by
    obtain ⟨f, rfl⟩ : ∃ f, fuel = f + 1 := ⟨fuel - 1, by have := szV_pos (.jstr s); omega⟩
    show parseValue (f + 1) ('"' :: ((escChars s.data ++ ['"']) ++ rest)) = some (.jstr s, rest)
    rw [List.append_assoc, List.singleton_append]
    simp only [parseValue]
    rw [skipWs_cons_notWs _ _ (by decide)]
    simp [parseStrChars_escChars s.data rest]
  | .jarr .anil, fuel, rest, hsz, _ => by
    obtain ⟨f, rfl⟩ : ∃ f, fuel = f + 1 := ⟨fuel - 1, by have := szV_pos (.jarr .anil); omega⟩
    show parseValue (f + 1) ('[' :: ']' :: rest) = some (.jarr .anil, rest)
    simp only [parseValue]
    rw [skipWs_cons_notWs _ _ (by decide)]
    simp [skipWs_cons_notWs _ rest (by decide : isWsChar ']' = false)]
  | .jarr (.acons v tl), fuel, rest, hsz, _ => by
    obtain ⟨f, rfl⟩ : ∃ f, fuel = f + 1 :=
      ⟨fuel - 1, by have := szV_pos (.jarr (.acons v tl)); omega⟩
    obtain ⟨T, heqT⟩ := dumpElems_acons v tl
    obtain ⟨c, cs, heqV, hws, hnbr, hnbrace⟩ := dumpV_head v
    have hshape : dumpElems (.acons v tl) ++ ']' :: rest = c :: (cs ++ (T ++ ']' :: rest)) := by
      rw [heqT, heqV]
      simp
    have hskipX : skipWs (dumpElems (.acons v tl) ++ ']' :: rest)
        = c :: (cs ++ (T ++ ']' :: rest)) := by
      rw [hshape]
      exact skipWs_cons_notWs _ _ hws
    have hparse : parseElems f (dumpElems (.acons v tl) ++ ']' :: rest)
        = some (.acons v tl, rest) :=
      parsesElems v tl f rest (by simp only [szV] at hsz; omega)
    show parseValue (f + 1) (('[' :: (dumpElems (.acons v tl) ++ [']'])) ++ rest)
        = some (.jarr (.acons v tl), rest)
    rw [List.cons_append, List.append_assoc, List.singleton_append]
    simp only [parseValue]
    rw [skipWs_cons_notWs _ _ (by decide)]
    simp [hskipX, hnbr]
    rw [← hshape, hparse]
  | .jobj .onil, fuel, rest, hsz, _ => by
    obtain ⟨f, rfl⟩ : ∃ f, fuel = f + 1 := ⟨fuel - 1, by have := szV_pos (.jobj .onil); omega⟩
    show parseValue (f + 1) ('\x7b' :: '\x7d' :: rest) = some (.jobj .onil, rest)
    simp only [parseValue]
    rw [skipWs_cons_notWs _ _ (by decide)]
    simp [skipWs_cons_notWs _ rest (by decide : isWsChar '\x7d' = false)]
  | .jobj (.ocons k v tl), fuel, rest, hsz, _ => by
    obtain ⟨f, rfl⟩ : ∃ f, fuel = f + 1 :=
      ⟨fuel - 1, by have := szV_pos (.jobj (.ocons k v tl)); omega⟩
    obtain ⟨M, heqM⟩ := dumpMembers_ocons k v tl
    have hshape : dumpMembers (.ocons k v tl) ++ '\x7d' :: rest
        = '"' :: (M ++ '\x7d' :: rest) := by
      rw [heqM]
      simp
    have hskipX : skipWs (dumpMembers (.ocons k v tl) ++ '\x7d' :: rest)
        = '"' :: (M ++ '\x7d' :: rest) := by
      rw [hshape]
      exact skipWs_cons_notWs _ _ (by decide)
    have hparse : parseMembers f (dumpMembers (.ocons k v tl) ++ '\x7d' :: rest)
        = some (.ocons k v tl, rest) :=
      parsesMembers k v tl f rest (by simp only [szV] at hsz; omega)
    show parseValue (f + 1) (('\x7b' :: (dumpMembers (.ocons k v tl) ++ ['\x7d'])) ++ rest)
        = some (.jobj (.ocons k v tl), rest)
    rw [List.cons_append, List.append_assoc, List.singleton_append]
    simp only [parseValue]
    rw [skipWs_cons_notWs _ _ (by decide)]
    simp [hskipX]
    rw [← hshape, hparse]
termination_by v fuel rest => sizeOf v
decreasing_by all_goals simp_wf <;> omega

/-- Round trip for one or more array elements followed by the closing
bracket. -/
theorem parsesElems : ∀ (v : JValue) (tl : JArr) (fuel : ℕ) (rest : List Char),
    szA (.acons v tl) ≤ fuel →
    parseElems fuel (dumpElems (.acons v tl) ++ ']' :: rest) = some (.acons v tl, rest)
  | v, .anil, fuel, rest, hsz => by
    obtain ⟨f, rfl⟩ : ∃ f, fuel = f + 1 := ⟨fuel - 1, by simp [szA] at hsz; omega⟩
    show parseElems (f + 1) (dumpV v ++ ']' :: rest) = some (.acons v .anil, rest)
    simp only [parseElems]
    rw [parsesV v f (']' :: rest) (by simp [szA] at hsz; omega)
      (noLeadingDigit_cons _ _ (by decide))]
    simp [skipWs_cons_notWs _ rest (by decide : isWsChar ']' = false)]
  | v, .acons w tl2, fuel, rest, hsz => by
    obtain ⟨f, rfl⟩ : ∃ f, fuel = f + 1 := ⟨fuel - 1, by simp [szA] at hsz; omega⟩
    have hval : parseValue f (dumpV v ++ ',' :: ' ' :: (dumpElems (.acons w tl2) ++ ']' :: rest))
        = some (v, ',' :: ' ' :: (dumpElems (.acons w tl2) ++ ']' :: rest)) :=
      parsesV v f _ (by have := szV_pos w; simp only [szA] at hsz; omega)
        (noLeadingDigit_cons _ _ (by decide))
    have hskip : skipWs (',' :: ' ' :: (dumpElems (.acons w tl2) ++ ']' :: rest))
        = ',' :: ' ' :: (dumpElems (.acons w tl2) ++ ']' :: rest) :=
      skipWs_cons_notWs _ _ (by decide)
    have hrec : parseElems f (' ' :: (dumpElems (.acons w tl2) ++ ']' :: rest))
        = some (.acons w tl2, rest) := by
      rw [parseElems_space]
      exact parsesElems w tl2 f rest (by
        have h0 := szV_pos v
        have hx : szA (JArr.acons w tl2) = szV w + szA tl2 + 1 := rfl
        simp only [szA] at hsz
        omega)
    show parseElems (f + 1)
        ((dumpV v ++ ',' :: ' ' :: dumpElems (.acons w tl2)) ++ ']' :: rest)
        = some (.acons v (.acons w tl2), rest)
    rw [List.append_assoc]
    simp only [List.cons_append]
    simp only [parseElems]
    rw [hval]
    simp [hskip, hrec]
termination_by v tl fuel rest => sizeOf v + sizeOf tl + 1
decreasing_by all_goals simp_wf <;> omega

/-- Round trip for one or more object members followed by the closing
brace. -/
theorem parsesMembers : ∀ (k : String) (v : JValue) (tl : JObj) (fuel : ℕ) (rest : List Char),
    szO (.ocons k v tl) ≤ fuel →
    parseMembers fuel (dumpMembers (.ocons k v tl) ++ '\x7d' :: rest)
      = some (.ocons k v tl, rest)
  | k, v, .onil, fuel, rest, hsz => by
    obtain ⟨f, rfl⟩ : ∃ f, fuel = f + 1 := ⟨fuel - 1, by simp [szO] at hsz; omega⟩
    have hstr := parseStrChars_escChars k.data (':' :: ' ' :: (dumpV v ++ '\x7d' :: rest))
    have hskip1 : skipWs (':' :: ' ' :: (dumpV v ++ '\x7d' :: rest))
        = ':' :: ' ' :: (dumpV v ++ '\x7d' :: rest) := skipWs_cons_notWs _ _ (by decide)
    have hval : parseValue f (' ' :: (dumpV v ++ '\x7d' :: rest)) = some (v, '\x7d' :: rest) := by
      rw [parseValue_space]
      exact parsesV v f ('\x7d' :: rest) (by simp [szO] at hsz; omega)
        (noLeadingDigit_cons _ _ (by decide))
    have hskip2 : skipWs ('\x7d' :: rest) = '\x7d' :: rest := skipWs_cons_notWs _ _ (by decide)
    have hk : (⟨k.data⟩ : String) = k := rfl
    show parseMembers (f + 1)
        ('"' :: ((escChars k.data ++ '"' :: ':' :: ' ' :: dumpV v) ++ '\x7d' :: rest))
        = some (.ocons k v .onil, rest)
    rw [show (escChars k.data ++ '"' :: ':' :: ' ' :: dumpV v) ++ '\x7d' :: rest
        = escChars k.data ++ '"' :: (':' :: ' ' :: (dumpV v ++ '\x7d' :: rest)) by simp]
    simp only [parseMembers]
    rw [hstr]
    simp [hskip1, hval, hskip2, hk]
  | k, v, .ocons k2 v2 tl2, fuel, rest, hsz => by
    obtain ⟨f, rfl⟩ : ∃ f, fuel = f + 1 := ⟨fuel - 1, by simp [szO] at hsz; omega⟩
    obtain ⟨M, heqM⟩ := dumpMembers_ocons k2 v2 tl2
    show parseMembers (f + 1)
        ((('"' :: (escChars k.data ++ '"' :: ':' :: ' ' :: dumpV v)) ++ ',' :: ' ' ::
          dumpMembers (.ocons k2 v2 tl2)) ++ '\x7d' :: rest)
        = some (.ocons k v (.ocons k2 v2 tl2), rest)
    rw [show (('"' :: (escChars k.data ++ '"' :: ':' :: ' ' :: dumpV v)) ++ ',' :: ' ' ::
          dumpMembers (.ocons k2 v2 tl2)) ++ '\x7d' :: rest
        = '"' :: (escChars k.data ++ '"' :: (':' :: ' ' :: (dumpV v ++ ',' :: ' ' ::
          (dumpMembers (.ocons k2 v2 tl2) ++ '\x7d' :: rest)))) by simp]
    simp only [parseMembers]
    rw [parseStrChars_escChars k.data (':' :: ' ' :: (dumpV v ++ ',' :: ' ' ::
      (dumpMembers (.ocons k2 v2 tl2) ++ '\x7d' :: rest)))]
    have hskip1 : skipWs (':' :: ' ' :: (dumpV v ++ ',' :: ' ' ::
          (dumpMembers (.ocons k2 v2 tl2) ++ '\x7d' :: rest)))
        = ':' :: ' ' :: (dumpV v ++ ',' :: ' ' ::
          (dumpMembers (.ocons k2 v2 tl2) ++ '\x7d' :: rest)) :=
      skipWs_cons_notWs _ _ (by decide)
    have hval : parseValue f (' ' :: (dumpV v ++ ',' :: ' ' ::
        (dumpMembers (.ocons k2 v2 tl2) ++ '\x7d' :: rest)))
        = some (v, ',' :: ' ' :: (dumpMembers (.ocons k2 v2 tl2) ++ '\x7d' :: rest)) := by
      rw [parseValue_space]
      exact parsesV v f _ (by have := szV_pos v2; simp only [szO] at hsz; omega)
        (noLeadingDigit_cons _ _ (by decide))
    have hskip2 : skipWs (',' :: ' ' :: (dumpMembers (.ocons k2 v2 tl2) ++ '\x7d' :: rest))
        = ',' :: ' ' :: (dumpMembers (.ocons k2 v2 tl2) ++ '\x7d' :: rest) :=
      skipWs_cons_notWs _ _ (by decide)
    have hrec : parseMembers f
        (skipWs (' ' :: (dumpMembers (.ocons k2 v2 tl2) ++ '\x7d' :: rest)))
        = some (.ocons k2 v2 tl2, rest) := by
      rw [show skipWs (' ' :: (dumpMembers (.ocons k2 v2 tl2) ++ '\x7d' :: rest))
          = dumpMembers (.ocons k2 v2 tl2) ++ '\x7d' :: rest by
        rw [heqM]
        simp [skipWs, isWsChar]]
      exact parsesMembers k2 v2 tl2 f rest (by
        have h0 := szV_pos v
        have hx : szO (JObj.ocons k2 v2 tl2) = szV v2 + szO tl2 + 1 := rfl
        simp only [szO] at hsz
        omega)
    have hk : (⟨k.data⟩ : String) = k := rfl
    simp [hskip1, hval, hskip2, hrec, hk]
termination_by k v tl fuel rest => sizeOf v + sizeOf tl + 1
decreasing_by all_goals simp_wf <;> omega
end

/-- `json.loads` is a left inverse of `json.dumps` on the modelled
values. -/
theorem loads_dumpV (v : JValue) : loads (dumpV v) = some v := by
  unfold loads
  have h := parsesV v (2 * (dumpV v).length + 2) [] (by have := szLeV v; omega) rfl
  rw [List.append_nil] at h
  rw [h]
  rfl

/-- `Message(**data)` recovers the message from the dict that
`write_message` serialises. -/
theorem msgOfObjAux_buildData (m : Message) : msgOfObjAux defaultMessage m.buildData = some m := by
  obtain ⟨j, mid, mm, mp, mr, me⟩ := m
  cases mid <;> cases mm <;> cases mp <;> cases mr <;> cases me <;>
    simp [Message.buildData, jobjAppend, optEntry, msgOfObjAux, setMsgField, defaultMessage]

/-- A serialised object buffer is non-blank. -/
theorem hasNonWs_brace (X Y : List Char) : hasNonWs (('\x7b' :: X) ++ Y) = true := by
  simp [hasNonWs, isWsChar]

/-- Claim C4.  Round trip through the transport: serialising any
well-formed envelope with `write_message` and feeding the bytes to
`read_message` yields exactly the same envelope (same fields present
and absent, equal values); the trailing newline stays unread.
Well-formedness (`wfMessage`) confines the statement to envelopes the
Python implementation can represent: printable-ASCII strings and no
top-level JSON-null `result`. -/
theorem C4_write_read_roundtrip (m : Message) (hwf : wfMessage m = true) :
    read_message [] ScanSt.init m.write_message = some (m, ['\n']) := by
  show read_message [] ScanSt.init
    (('\x7b' :: (dumpMembers m.buildData ++ ['\x7d'])) ++ ['\n']) = some (m, ['\n'])
  have hstep1 : scanStep ScanSt.init '\x7b' = (⟨1, false, false⟩, false) := by
    rw [show ScanSt.init = ⟨0, false, false⟩ from rfl, scanStep_open_brace 0]
    norm_num
  rw [show ('\x7b' :: (dumpMembers m.buildData ++ ['\x7d'])) ++ ['\n']
      = '\x7b' :: (dumpMembers m.buildData ++ ('\x7d' :: ['\n'])) by simp]
  rw [read_message, if_neg (by rw [hstep1]; simp)]
  rw [show ([] : List Char) ++ ['\x7b'] = ['\x7b'] from rfl, hstep1]
  rw [read_message_append (dumpMembers m.buildData) ['\x7b'] ⟨1, false, false⟩
    ⟨1, false, false⟩ ('\x7d' :: ['\n']) (scanRun_dumpMembers m.buildData 1 (by omega))]
  have hstep2 : scanStep ⟨1, false, false⟩ '\x7d' = (⟨0, false, false⟩, true) := by
    rw [scanStep_close_brace 1]
    norm_num
  rw [read_message, if_pos (by
    constructor
    · rw [hstep2]
    · exact hasNonWs_brace (dumpMembers m.buildData) ['\x7d'])]
  rw [show (['\x7b'] ++ dumpMembers m.buildData) ++ ['\x7d']
      = dumpV (.jobj m.buildData) by simp [dumpV]]
  rw [loads_dumpV (.jobj m.buildData)]
  simp [msgOfJson, msgOfObjAux_buildData m]

/-- Witness for C4 at a concrete envelope with nested params (object
inside array inside object), a string with embedded braces and an
escaped quote. -/
theorem C4_witness :
    wfMessage exampleMessage = true ∧
    read_message [] ScanSt.init exampleMessage.write_message = some (exampleMessage, ['\n']) :=
  ⟨rfl, C4_write_read_roundtrip exampleMessage rfl⟩

/-- Claim C8.  If the scanner's brace depth returns to zero over a
buffer that is not valid JSON, `read_message` discards the buffer and
keeps framing: whatever message the remaining stream would produce on
its own is still produced.  (`pre ++ [c]` is the malformed buffer,
completing exactly at `c` with the scanner back in its initial
state.) -/
theorem C8_malformed_buffer_recovery (pre : List Char) (c : Char) (rest rest2 : List Char)
    (m : Message) (st1 : ScanSt)
    (h1 : scanRun ScanSt.init pre = (st1, false))
    (h2 : scanStep st1 c = (ScanSt.init, true))
    (h3 : hasNonWs (pre ++ [c]) = true)
    (h4 : loads (pre ++ [c]) = none)
    (h5 : read_message [] ScanSt.init rest = some (m, rest2)) :
    read_message [] ScanSt.init ((pre ++ [c]) ++ rest) = some (m, rest2) := by
  rw [show (pre ++ [c]) ++ rest = pre ++ (c :: rest) by simp]
  rw [read_message_append pre [] ScanSt.init st1 (c :: rest) h1, List.nil_append]
  simp only [read_message]
  rw [h2]
  rw [if_pos (⟨rfl, h3⟩ :
    ((ScanSt.init, true) : ScanSt × Bool).2 = true ∧ hasNonWs (pre ++ [c]) = true)]
  rw [h4]
  exact h5

/-- Witness for C8: the malformed buffer `{]}` (depth returns to zero,
not valid JSON) followed by the well-formed request
`{"id": 7, "method": "unknown"}`, which is still parsed. -/
theorem C8_witness :
    read_message [] ScanSt.init ((("\x7b]").toList ++ ['\x7d']) ++ reqUnknown7)
      = some (⟨"2.0", some 7, some "unknown", none, none, none⟩, []) := by
  exact C8_malformed_buffer_recovery (("\x7b]").toList) '\x7d' reqUnknown7 []
    ⟨"2.0", some 7, some "unknown", none, none, none⟩ ⟨1, false, false⟩
    rfl rfl rfl rfl rfl

/-- Claim C5.  With no handler registered for `"unknown"`, dispatching
the inbound envelope `{"id": 7, "method": "unknown"}` writes exactly
one response: id 7 with error code `-32601` and message
`"Method not found: unknown"`; and the dispatch loop is not terminated
by it — the next envelope on the stream is read and dispatched in
turn. -/
theorem C5_unknown_method_dispatch (handlers : List (String × Handler))
    (h : lookupHandler handlers "unknown" = none) :
    read_message [] ScanSt.init (reqUnknown7 ++ reqUnknown8)
      = some (⟨"2.0", some 7, some "unknown", none, none, none⟩, reqUnknown8) ∧
    handle_message handlers ⟨"2.0", some 7, some "unknown", none, none, none⟩
      = [send_response 7 none (some (errObj (-32601) "Method not found: unknown"))] ∧
    runDispatch handlers 2 (reqUnknown7 ++ reqUnknown8)
      = [send_response 7 none (some (errObj (-32601) "Method not found: unknown")),
         send_response 8 none (some (errObj (-32601) "Method not found: unknown"))] := by
  have hread1 : read_message [] ScanSt.init (reqUnknown7 ++ reqUnknown8)
      = some (⟨"2.0", some 7, some "unknown", none, none, none⟩, reqUnknown8) := rfl
  have hread2 : read_message [] ScanSt.init reqUnknown8
      = some (⟨"2.0", some 8, some "unknown", none, none, none⟩, []) := rfl
  have hh7 : handle_message handlers ⟨"2.0", some 7, some "unknown", none, none, none⟩
      = [send_response 7 none (some (errObj (-32601) "Method not found: unknown"))] := by
    simp [handle_message]
    rw [h]
    rfl
  have hh8 : handle_message handlers ⟨"2.0", some 8, some "unknown", none, none, none⟩
      = [send_response 8 none (some (errObj (-32601) "Method not found: unknown"))] := by
    simp [handle_message]
    rw [h]
    rfl
  have e1 : runDispatch handlers 2 (reqUnknown7 ++ reqUnknown8)
      = handle_message handlers ⟨"2.0", some 7, some "unknown", none, none, none⟩
        ++ runDispatch handlers 1 reqUnknown8 := by
    rw [show (2 : ℕ) = 1 + 1 from rfl]
    simp only [runDispatch]
    rw [hread1]
  have e2 : runDispatch handlers 1 reqUnknown8
      = handle_message handlers ⟨"2.0", some 8, some "unknown", none, none, none⟩
        ++ runDispatch handlers 0 [] := by
    rw [show (1 : ℕ) = 0 + 1 from rfl]
    simp only [runDispatch]
    rw [hread2]
  refine ⟨hread1, hh7, ?_⟩
  rw [e1, e2, hh7, hh8]
  simp [runDispatch]

/-- Witness for C5 with the empty registry. -/
theorem C5_witness :
    handle_message [] ⟨"2.0", some 7, some "unknown", none, none, none⟩
      = [send_response 7 none (some (errObj (-32601) "Method not found: unknown"))] ∧
    runDispatch [] 2 (reqUnknown7 ++ reqUnknown8)
      = [send_response 7 none (some (errObj (-32601) "Method not found: unknown")),
         send_response 8 none (some (errObj (-32601) "Method not found: unknown"))] := by
  have h := C5_unknown_method_dispatch [] rfl
  exact ⟨h.2.1, h.2.2⟩
